import Mathlib

/-!
Verification development for the metrics-monitoring batch engine
(metricsmonitoring.py).  The Python source is embedded shallowly:

* strings are lists of characters, floats are exact rationals;
* the alert-dedup JSON document is an association list, the possibly
  missing file is an `Option`;
* `parse_table_to_df` is translated stage by stage (header search,
  whitespace-run splitting, row filtering, column coercions), failure
  paths (`return None`, caught exceptions) become `none`;
* the per-site body of `monitor_sites` becomes `sitePass`, which turns
  the Slack dispatches into a list of typed signals and threads the
  dedup store.

Numeric caveats: Python floats are modelled as exact rationals.  The
Python `int()` underscore-grouping form and non-`\n` line separators in
`str.splitlines` are not modelled; no theorem below depends on inputs
using them.
-/

namespace MetricsMonitoring

/-! ### Basic text utilities used by the source -/

/-- Whitespace, matching the ASCII class of the regex used in
`parse_table_to_df`. -/
def isWs (c : Char) : Bool :=
  c = ' ' || c = '\t' || c = '\n' || c = '\r' || c = '\x0b' || c = '\x0c'

/-- Python `str.strip`: remove leading and trailing whitespace. -/
def strip (s : List Char) : List Char :=
  ((s.dropWhile isWs).reverse.dropWhile isWs).reverse

/-- Splitting a line on runs of two or more whitespace characters, as
`re.split` with the two-or-more-whitespace pattern does (a single
whitespace character stays inside a field).  The second argument is the
accumulator for the current field, in reverse. -/
def splitWs2 : List Char → List Char → List (List Char)
  | [], acc => [acc.reverse]
  | [c], acc => [(c :: acc).reverse]
  | c1 :: c2 :: rest, acc =>
    if isWs c1 && isWs c2 then
      acc.reverse :: splitWs2 ((c2 :: rest).dropWhile isWs) []
    else
      splitWs2 (c2 :: rest) (c1 :: acc)
termination_by l _ => l.length
decreasing_by
  · have h : ∀ (l : List Char), (l.dropWhile isWs).length ≤ l.length := by
      intro l
      induction l with
      | nil => simp [List.dropWhile]
      | cons a t ih =>
        rw [List.dropWhile_cons]
        split
        · exact Nat.le_succ_of_le ih
        · exact Nat.le_refl _
    simpa using Nat.lt_succ_of_le (h (c2 :: rest))
  · simp

/-- Split a character list at every occurrence of a separator. -/
def splitOnChar (sep : Char) : List Char → List (List Char)
  | [] => [[]]
  | c :: cs =>
    if c = sep then [] :: splitOnChar sep cs
    else
      match splitOnChar sep cs with
      | l :: ls => (c :: l) :: ls
      | [] => [[c]]

/-- Python `str.splitlines` restricted to the newline character: split on
every newline and drop the empty tail a trailing newline produces. -/
def splitlinesChar (s : List Char) : List (List Char) :=
  let p := splitOnChar '\n' s
  if p.getLast? = some ([] : List Char) then p.dropLast else p

/-- Value of a digit string (digits are guaranteed by the callers). -/
def digitsToNat (ds : List Char) : Nat :=
  ds.foldl (fun n c => 10 * n + (c.toNat - 48)) 0

/-- A non-empty all-digit string parses to a natural number. -/
def parseNatDigits (ds : List Char) : Option Nat :=
  if ds ≠ [] ∧ ds.all Char.isDigit then some (digitsToNat ds) else none

/-- Python `int(...)` applied by the `astype(int)` coercion: optional
sign around a digit string, surrounding whitespace ignored. -/
def parseIntStr (s : List Char) : Option Int :=
  match strip s with
  | '-' :: ds => (parseNatDigits ds).map (fun n => -(n : Int))
  | '+' :: ds => (parseNatDigits ds).map (fun n => (n : Int))
  | ds => (parseNatDigits ds).map (fun n => (n : Int))

/-- Unsigned decimal literal (digits, optionally a point and more
digits, at least one digit overall), read as an exact rational. -/
def parseDecRat (s : List Char) : Option ℚ :=
  match s.dropWhile Char.isDigit with
  | [] => if s = [] then none else some ((digitsToNat s : ℚ))
  | '.' :: fp =>
    if fp.all Char.isDigit ∧ (s.takeWhile Char.isDigit ≠ [] ∨ fp ≠ []) then
      some ((digitsToNat (s.takeWhile Char.isDigit) : ℚ) +
        (digitsToNat fp : ℚ) / ((10 : ℚ) ^ fp.length))
    else none
  | _ => none

/-- Python `float(...)` applied by the `astype(float)` coercion, on the
decimal forms the metrics feed produces. -/
def parseFloatStr (s : List Char) : Option ℚ :=
  match strip s with
  | '-' :: t => (parseDecRat t).map (fun q => -q)
  | '+' :: t => parseDecRat t
  | t => parseDecRat t

def isLeapYear (y : Nat) : Bool :=
  (y % 4 = 0 && y % 100 ≠ 0) || y % 400 = 0

def daysInMonth (y m : Nat) : Nat :=
  if m = 2 then (if isLeapYear y then 29 else 28)
  else if m = 4 ∨ m = 6 ∨ m = 9 ∨ m = 11 then 30 else 31

/-- The date coercion with the year-month-day format used on the
`Period` column: four year digits, month and day fields, calendar
validity checked. -/
def parseDateStr (s : List Char) : Option (Nat × Nat × Nat) :=
  match splitOnChar '-' (strip s) with
  | [ys, ms, ds] =>
    match parseNatDigits ys, parseNatDigits ms, parseNatDigits ds with
    | some y, some m, some d =>
      if ys.length = 4 ∧ 1 ≤ m ∧ m ≤ 12 ∧ 1 ≤ d ∧ d ≤ daysInMonth y m then
        some (y, m, d)
      else none
    | _, _, _ => none
  | _ => none

/-! ### Table parser (`parse_table_to_df`) -/

/-- One parsed cell of the data frame: raw text, an integer column
value, a float column value, or a converted `Period` date. -/
inductive Cell where
  | str : List Char → Cell
  | int : Int → Cell
  | rat : ℚ → Cell
  | date : Nat → Nat → Nat → Cell
deriving DecidableEq

def periodHeader : List Char := ("Period").toList

def cacheHitHeader : List Char := ("Cache Hit Ratio").toList

/-- The integer columns coerced by the source, in source order. -/
def numericColNames : List (List Char) :=
  [("Visits").toList, ("Pages Served").toList, ("Cache Hits").toList,
   ("Cache Misses").toList, ("HTTP 4xx").toList, ("HTTP 5xx").toList]

/-- Does the needle start the haystack? -/
def startsWithChars : List Char → List Char → Bool
  | [], _ => true
  | _ :: _, [] => false
  | a :: as, b :: bs => a = b && startsWithChars as bs

/-- Python substring membership: does the needle occur contiguously in
the haystack? -/
def containsStr (needle : List Char) : List Char → Bool
  | [] => needle = ([] : List Char)
  | c :: cs => startsWithChars needle (c :: cs) || containsStr needle cs

/-- Does a line contain both header markers? -/
def containsBoth (l : List Char) : Bool :=
  containsStr periodHeader l && containsStr cacheHitHeader l

/-- Locate the first line holding both markers; return it together with
the lines after the separator line that follows it. -/
def findHeader : List (List Char) → Option (List Char × List (List Char))
  | [] => none
  | l :: ls => if containsBoth l then some (l, ls.drop 1) else findHeader ls

/-- The body-loop test of the source: blank lines and dash lines are
skipped, a field count differing from the header drops the row. -/
def keepRow (headerLen : Nat) (line : List Char) : Option (List (List Char)) :=
  let s := strip line
  if s = [] ∨ s.headD 'x' = '-' then none
  else
    let row := splitWs2 s []
    if row.length = headerLen then some row else none

/-- The raw table before column coercion: header names and string rows,
every kept row as wide as the header. -/
structure RawTable where
  header : List (List Char)
  rows : List (List (List Char))
deriving DecidableEq

/-- Structural extraction stage of `parse_table_to_df` (header search,
separator skip, row filtering, empty-data failure). -/
def stage1 (output : List Char) : Option RawTable :=
  match findHeader (splitlinesChar output) with
  | none => none
  | some (hl, rest) =>
    let header := splitWs2 (strip hl) []
    let data := rest.filterMap (keepRow header.length)
    if data = [] then none else some ⟨header, data⟩

/-- Integer coercion of one cell: strip thousands separators, parse. -/
def intCellParse : Cell → Option Cell
  | Cell.str s => (parseIntStr (s.filter (fun c => !(c = ',')))).map Cell.int
  | _ => none

/-- Ratio coercion of one cell: strip percent signs, parse as float. -/
def ratCellParse : Cell → Option Cell
  | Cell.str s => (parseFloatStr (s.filter (fun c => !(c = '%')))).map Cell.rat
  | _ => none

/-- Date coercion of one cell for the `Period` column. -/
def dateCellParse : Cell → Option Cell
  | Cell.str s => (parseDateStr s).map (fun t => Cell.date t.1 t.2.1 t.2.2)
  | _ => none

/-- First index of a column name in the header (the pandas column
lookup position). -/
def colIdx (col : List Char) : List (List Char) → Nat
  | [] => 0
  | h :: t => if h = col then 0 else colIdx col t + 1

/-- Number of header cells holding a column name (pandas selects a
sub-frame when a name is duplicated, making the coercion raise). -/
def colCount (col : List Char) : List (List Char) → Nat
  | [] => 0
  | h :: t => (if h = col then 1 else 0) + colCount col t

/-- Rewrite position `j` of a row through a cell coercion. -/
def coerceCellAt (f : Cell → Option Cell) (j : Nat) (r : List Cell) :
    Option (List Cell) :=
  match r.get? j with
  | some c => (f c).map (fun c2 => r.set j c2)
  | none => none

/-- Column update `df[col] = df[col]... .astype(...)`: coerce the cell in
every row, the whole parse failing when any cell fails. -/
def coerceColumn (f : Cell → Option Cell) (j : Nat) (rows : List (List Cell)) :
    Option (List (List Cell)) :=
  rows.mapM (coerceCellAt f j)

/-- One step of the integer-column loop of the source.  A column name
present more than once makes the column selection a sub-frame whose
string accessor raises, which the enclosing handler turns into an
unparseable result. -/
def numericStep (header : List (List Char)) (rs : List (List Cell))
    (col : List Char) : Option (List (List Cell)) :=
  if col ∈ header then
    if colCount col header = 1 then
      coerceColumn intCellParse (colIdx col header) rs
    else none
  else pure rs

def coerceNumeric (header : List (List Char)) (rows : List (List Cell)) :
    Option (List (List Cell)) :=
  numericColNames.foldlM (numericStep header) rows

/-- The unconditional ratio coercion: a missing (or duplicated) ratio
column raises, aborting the parse. -/
def coerceRatioStage (header : List (List Char)) (rows : List (List Cell)) :
    Option (List (List Cell)) :=
  if colCount cacheHitHeader header = 1 then
    coerceColumn ratCellParse (colIdx cacheHitHeader header) rows
  else none

/-- The guarded `Period` conversion: on any failure (missing column,
unparseable date) the column is left as raw text. -/
def convertPeriodStage (header : List (List Char)) (rows : List (List Cell)) :
    List (List Cell) :=
  if colCount periodHeader header = 1 then
    match coerceColumn dateCellParse (colIdx periodHeader header) rows with
    | some rows2 => rows2
    | none => rows
  else rows

/-- The typed data frame the parser returns. -/
structure Df where
  header : List (List Char)
  rows : List (List Cell)
deriving DecidableEq

/-- Shallow embedding of `parse_table_to_df`: structural extraction,
then the three coercion stages; every failure path yields `none`. -/
def parse_table_to_df (output : List Char) : Option Df :=
  (stage1 output).bind (fun rt =>
    (coerceNumeric rt.header (rt.rows.map (fun r => r.map Cell.str))).bind
      (fun rows1 => (coerceRatioStage rt.header rows1).map
        (fun rows2 => ⟨rt.header, convertPeriodStage rt.header rows2⟩)))

/-! ### Well-formed tables and their rendering

The round-trip statements below quantify over structured tables (header
fields, a separator line, rows of fields) rendered to text with two
spaces between fields and one newline between lines, the layout the
metrics command emits.  A field is well formed when it is non-empty,
contains no two adjacent whitespace characters, no newline, and starts
and ends with non-whitespace. -/

def noDoubleWs : List Char → Bool
  | [] => true
  | [_] => true
  | c1 :: c2 :: rest => (!(isWs c1 && isWs c2)) && noDoubleWs (c2 :: rest)

def goodField (f : List Char) : Bool :=
  (!(f = [])) && noDoubleWs f && (!(isWs (f.headD 'x'))) &&
    (!(isWs (f.getLastD 'x'))) && f.all (fun c => !(c = '
'))

/-- A well-formed data row: non-empty, well-formed fields, and not
starting with a dash (which the parser would skip). -/
def goodRow : List (List Char) → Bool
  | [] => false
  | f :: fs => (f :: fs).all goodField && (!(f.headD 'x' = '-'))

/-- Join fields with the two-space column separator. -/
def join2 : List (List Char) → List Char
  | [] => []
  | [f] => f
  | f :: g :: rest => f ++ ' ' :: ' ' :: join2 (g :: rest)

/-- Join lines with single newlines. -/
def intercalateNl : List (List Char) → List Char
  | [] => []
  | [l] => l
  | l :: g :: rest => l ++ '
' :: intercalateNl (g :: rest)

/-- Render a structured table to the text the parser receives. -/
def renderTable (hs : List (List Char)) (sep : List Char)
    (rows : List (List (List Char))) : List Char :=
  intercalateNl (join2 hs :: sep :: rows.map join2)

/-- The rows whose field count matches the header. -/
def goodOf (hs : List (List Char)) (rows : List (List (List Char))) :
    List (List (List Char)) :=
  rows.filter (fun r => decide (r.length = hs.length))

/-- Does some integer column of an extracted raw table hold a cell the
integer coercion rejects? -/
def rowsHaveBadIntCell (header : List (List Char))
    (rows : List (List (List Char))) : Bool :=
  numericColNames.any (fun col =>
    decide (col ∈ header) && decide (colCount col header = 1) &&
      rows.any (fun r =>
        (parseIntStr ((r.getD (colIdx col header) []).filter
          (fun c => !(c = ',')))).isNone))

/-- Does the ratio column hold a cell the float coercion rejects? -/
def rowsHaveBadRatioCell (header : List (List Char))
    (rows : List (List (List Char))) : Bool :=
  decide (colCount cacheHitHeader header = 1) &&
    rows.any (fun r =>
      (parseFloatStr ((r.getD (colIdx cacheHitHeader header) []).filter
        (fun c => !(c = '%')))).isNone)

/-- A numeric coercion failure somewhere in the extracted table. -/
def hasBadNumericCell : Option RawTable → Bool
  | none => false
  | some rt => rowsHaveBadIntCell rt.header rt.rows ||
      rowsHaveBadRatioCell rt.header rt.rows

/-- A concrete three-column header. -/
def exHeader : List (List Char) :=
  [("Period").toList, ("Visits").toList, ("Cache Hit Ratio").toList]

/-- A concrete separator line. -/
def exSep : List Char := ("----------  ------  ---------------").toList

/-- One well-formed data row and one row of the wrong width. -/
def exRowsMixed : List (List (List Char)) :=
  [[("2024-01-01").toList, ("1,200").toList, ("75%").toList],
   [("x").toList, ("y").toList]]

/-- A single data row of the wrong width. -/
def exRowsShort : List (List (List Char)) :=
  [[("2024-01-01").toList, ("abc").toList]]

/-- A single full-width row whose visits cell is not a number. -/
def exRowsBadInt : List (List (List Char)) :=
  [[("2024-01-01").toList, ("abc").toList, ("75%").toList]]

/-- A single fully coercible row. -/
def exRowsGood : List (List (List Char)) :=
  [[("2024-01-01").toList, ("1,200").toList, ("75%").toList]]

/-- The frame the good row parses to. -/
def exDfGood : Df :=
  ⟨exHeader, [[Cell.date 2024 1 1, Cell.int 1200, Cell.rat 75]]⟩

/-! ### Alert dedup store (`already_alerted` / `mark_alerted`) -/

/-- The persisted JSON document: an insertion-ordered key-to-flag map. -/
abbrev AlertLog := List (List Char × Bool)

/-- Dictionary lookup (first matching key). -/
def logFind : AlertLog → List Char → Option Bool
  | [], _ => none
  | (k2, v) :: t, k => if k2 = k then some v else logFind t k

/-- Python `log.get(key, False)`. -/
def logGet (l : AlertLog) (k : List Char) : Bool :=
  (logFind l k).getD false

/-- Update of one stored entry when its key matches. -/
def setEntry (k : List Char) (p : List Char × Bool) : List Char × Bool :=
  if p.1 = k then (k, true) else p

/-- Python `log[key] = True`: update in place when the key exists,
append otherwise. -/
def logSet (l : AlertLog) (k : List Char) : AlertLog :=
  if (logFind l k).isSome then l.map (setEntry k)
  else l ++ [(k, true)]

/-- `load_alert_log`: a missing file is an empty mapping. -/
def load_alert_log : Option AlertLog → AlertLog
  | none => []
  | some l => l

/-- `save_alert_log`: the whole mapping is rewritten, after which the
file exists. -/
def save_alert_log (l : AlertLog) : Option AlertLog := some l

/-- The composite dedup key string `site:alertType:date`. -/
def dedupKey (site ty date : List Char) : List Char :=
  site ++ ':' :: ty ++ ':' :: date

/-- `already_alerted` reads the persisted state. -/
def already_alerted (st : Option AlertLog) (site ty date : List Char) : Bool :=
  logGet (load_alert_log st) (dedupKey site ty date)

/-- `mark_alerted` sets the key and persists the mapping back. -/
def mark_alerted (st : Option AlertLog) (site ty date : List Char) :
    Option AlertLog :=
  save_alert_log (logSet (load_alert_log st) (dedupKey site ty date))

/-! ### The per-site batch pass of `monitor_sites` -/

/-- One observation record as the detectors read it off the parsed
frame: the formatted period date, the visit count, the cache-hit-ratio
percentage (the `Cache Hit Ratio` column), the raw miss count, and the
two optional error-count columns. -/
structure MetricRecord where
  period : List Char
  visits : Int
  hitPct : ℚ
  cacheMisses : Int
  http4xx : Option Int
  http5xx : Option Int
deriving DecidableEq

/-- Arithmetic mean of a list of rationals (the pandas `.mean()`). -/
def mean (l : List ℚ) : ℚ :=
  if l.length = 0 then 0 else l.sum / (l.length : ℚ)

/-- The slice of the last five records before the most recent one
(`df.iloc` from minus six to minus one). -/
def previousDays (recs : List MetricRecord) : List MetricRecord :=
  recs.dropLast.drop (recs.length - 6)

/-- The trailing-window baseline of the spike check: the mean of the
previous-days window when it holds at least three records, otherwise
the mean over all records but the last. -/
def avg_visits (recs : List MetricRecord) : ℚ :=
  if 3 ≤ (previousDays recs).length then
    mean ((previousDays recs).map (fun r => (r.visits : ℚ)))
  else
    mean (recs.dropLast.map (fun r => (r.visits : ℚ)))

/-- The reported percent increase, zeroed when the baseline is not
positive. -/
def percent_increase (recentVisits : Int) (avg : ℚ) : ℚ :=
  if 0 < avg then (((recentVisits : ℚ) - avg) / avg) * 100 else 0

def trafficSpikeType : List Char := ("traffic_spike").toList

def errorRateType : List Char := ("error_rate").toList

def cacheEfficiencyType : List Char := ("cache_efficiency").toList

/-- Payload of a traffic-spike alert. -/
structure SpikeSignal where
  date : List Char
  recentVisits : Int
  avgVisits : ℚ
  percentIncrease : ℚ
  thresholdPercent : ℚ
deriving DecidableEq

/-- Payload of a high-error-rate alert. -/
structure ErrorSignal where
  date : List Char
  http4xx : Int
  http5xx : Int
deriving DecidableEq

/-- Severity bucket shown on the cache alert. -/
inductive Severity where
  | green
  | yellow
  | red
deriving DecidableEq

/-- The severity bucketing of the cache alert body. -/
def cacheSeverity (q : ℚ) : Severity :=
  if 80 ≤ q then Severity.green else if 50 ≤ q then Severity.yellow
  else Severity.red

/-- Payload of a low-cache-efficiency alert. -/
structure CacheSignal where
  avgPct : ℚ
  severity : Severity
  trend : List (List Char × ℚ)
  worst : List Char × ℚ
  recentMisses : Int
deriving DecidableEq

/-- A dispatched alert. -/
inductive Signal where
  | spike : SpikeSignal → Signal
  | errorRate : ErrorSignal → Signal
  | cache : CacheSignal → Signal
deriving DecidableEq

/-- The traffic-spike branch: dedup gate, then the threshold test, a
dispatch marking the store. -/
def spikeStep (site : List Char) (thresholdPercent : ℚ)
    (recs : List MetricRecord) (recent : MetricRecord)
    (st : Option AlertLog) : List Signal × Option AlertLog :=
  if already_alerted st site trafficSpikeType recent.period = false then
    if 0 < avg_visits recs ∧
        (recent.visits : ℚ) > avg_visits recs * (1 + thresholdPercent / 100) then
      ([Signal.spike ⟨recent.period, recent.visits, avg_visits recs,
          percent_increase recent.visits (avg_visits recs), thresholdPercent⟩],
        mark_alerted st site trafficSpikeType recent.period)
    else ([], st)
  else ([], st)

/-- The error-rate branch: runs only when both error columns are
present, with its own dedup gate and the fixed thresholds. -/
def errorStep (site : List Char) (recent : MetricRecord)
    (st : Option AlertLog) : List Signal × Option AlertLog :=
  match recent.http4xx, recent.http5xx with
  | some c4, some c5 =>
    if already_alerted st site errorRateType recent.period = false then
      if 100 < c4 ∨ 10 < c5 then
        ([Signal.errorRate ⟨recent.period, c4, c5⟩],
          mark_alerted st site errorRateType recent.period)
      else ([], st)
    else ([], st)
  | _, _ => ([], st)

/-- The mean cache-hit ratio, zero on an empty frame. -/
def avgHitPct (recs : List MetricRecord) : ℚ :=
  if recs = [] then 0 else mean (recs.map (fun r => r.hitPct))

/-- First row attaining the minimal cache-hit ratio (the pandas
index-of-minimum, which keeps the first occurrence on ties). -/
def worstBy : List MetricRecord → Option MetricRecord
  | [] => none
  | r :: rest =>
    match worstBy rest with
    | some w => some (if w.hitPct < r.hitPct then w else r)
    | none => some r

/-- The cache-efficiency branch.  It has no dedup gate.  The impossible
empty-window case (the caller guarantees more than four records) is
mapped to no signal. -/
def cacheStep (recs : List MetricRecord) : List Signal :=
  if avgHitPct recs < 50 then
    match worstBy (recs.drop (recs.length - 5)), recs.getLast? with
    | some w, some recent =>
      [Signal.cache ⟨avgHitPct recs, cacheSeverity (avgHitPct recs),
        (recs.drop (recs.length - 5)).map (fun r => (r.period, r.hitPct)),
        (w.period, w.hitPct), recent.cacheMisses⟩]
    | _, _ => []
  else []

/-- The per-site body of `monitor_sites`: under the guard of more than
four parsed records, run the spike, error-rate and cache checks in
source order, threading the dedup store, and collect the dispatched
signals. -/
def sitePass (site : List Char) (thresholdPercent : ℚ)
    (recs : List MetricRecord) (st : Option AlertLog) :
    List Signal × Option AlertLog :=
  if 4 < recs.length then
    match recs.getLast? with
    | some recent =>
      let p1 := spikeStep site thresholdPercent recs recent st
      let p2 := errorStep site recent p1.2
      (p1.1 ++ p2.1 ++ cacheStep recs, p2.2)
    | none => ([], st)
  else ([], st)

/-! ### Day-of-week baseline (weekly collection variant) -/

/-- One weekly observation with its derivable day of week. -/
structure WeeklyRecord where
  weekday : Fin 7
  visits : Int
deriving DecidableEq

/-- Modelled from the spec: the day-of-week baseline mode of the
weekly-period collection variant is not part of the source under
`src/` (the source file runs the daily collection with the
trailing-window baseline only).  Following the spec's words: take the
day of week of the most recent record, collect all earlier records
sharing it, average the three most recent matches when at least three
exist, and otherwise fall back to the mean of the four records at
positions minus five through minus two. -/
def weekday_baseline (recs : List WeeklyRecord) : ℚ :=
  match recs.getLast? with
  | none => 0
  | some recent =>
    let ms := recs.dropLast.filter (fun r => decide (r.weekday = recent.weekday))
    if 3 ≤ ms.length then
      mean ((ms.drop (ms.length - 3)).map (fun r => (r.visits : ℚ)))
    else
      mean ((recs.dropLast.drop (recs.length - 5)).map (fun r => (r.visits : ℚ)))

/-- Is a signal a cache-efficiency signal? -/
def isCacheSignal : Signal → Bool
  | Signal.cache _ => true
  | _ => false

/-! ### Concrete instances used by witnesses and counterexamples -/

/-- Build a record with the given period string, visits, cache-hit
percentage, miss count and optional error counts. -/
def mkRec (p : String) (v : Int) (q : ℚ) (miss : Int)
    (e4 e5 : Option Int) : MetricRecord :=
  ⟨p.toList, v, q, miss, e4, e5⟩

/-- The ten weekly records of the same day of week whose three most
recent earlier matches carry one hundred, one hundred twenty and one
hundred forty visits. -/
def exWeekly : List WeeklyRecord :=
  [⟨(0 : Fin 7), 1⟩, ⟨(0 : Fin 7), 2⟩, ⟨(0 : Fin 7), 3⟩, ⟨(0 : Fin 7), 4⟩,
   ⟨(0 : Fin 7), 5⟩, ⟨(0 : Fin 7), 6⟩, ⟨(0 : Fin 7), 100⟩,
   ⟨(0 : Fin 7), 120⟩, ⟨(0 : Fin 7), 140⟩, ⟨(0 : Fin 7), 999⟩]

/-! ### Lemmas about the dedup store -/

theorem setEntry_pos {k k2 : List Char} {v : Bool} (h : k2 = k) :
    setEntry k (k2, v) = (k, true) := by
  unfold setEntry
  exact if_pos h

theorem setEntry_neg {k k2 : List Char} {v : Bool} (h : ¬(k2 = k)) :
    setEntry k (k2, v) = (k2, v) := by
  unfold setEntry
  exact if_neg h

theorem logFind_isSome_of_mem {l : AlertLog} {p : List Char × Bool}
    (hm : p ∈ l) : (logFind l p.1).isSome = true := by
  induction l with
  | nil => cases hm
  | cons q t ih =>
    obtain ⟨k2, v⟩ := q
    rcases List.mem_cons.mp hm with rfl | hm2
    · simp [logFind]
    · by_cases hq : k2 = p.1
      · simp [logFind, hq]
      · simpa [logFind, hq] using ih hm2

theorem logFind_mapSet_self {l : AlertLog} {k : List Char}
    (h : (logFind l k).isSome = true) :
    logFind (l.map (setEntry k)) k = some true := by
  induction l with
  | nil => simp [logFind] at h
  | cons q t ih =>
    obtain ⟨k2, v⟩ := q
    rw [List.map_cons]
    by_cases hq : k2 = k
    · rw [setEntry_pos hq]
      simp [logFind]
    · rw [setEntry_neg hq]
      simp only [logFind, hq, if_false] at h ⊢
      exact ih h

theorem logFind_mapSet_ne (l : AlertLog) {k k2 : List Char} (h : k2 ≠ k) :
    logFind (l.map (setEntry k)) k2 = logFind l k2 := by
  induction l with
  | nil => simp
  | cons q t ih =>
    obtain ⟨k3, v⟩ := q
    rw [List.map_cons]
    have hk : ¬(k = k2) := fun he => h he.symm
    by_cases hq : k3 = k
    · rw [setEntry_pos hq]
      subst hq
      simp only [logFind, if_neg hk, if_neg (fun he => hk he)]
      exact ih
    · rw [setEntry_neg hq]
      by_cases hq2 : k3 = k2 <;> simp [logFind, hq2, ih]

theorem logFind_append_single_self {l : AlertLog} {k : List Char}
    (h : logFind l k = none) :
    logFind (l ++ [(k, true)]) k = some true := by
  induction l with
  | nil => simp [logFind]
  | cons q t ih =>
    obtain ⟨k2, v⟩ := q
    by_cases hq : k2 = k
    · subst hq
      simp [logFind] at h
    · simp only [logFind, hq, if_false] at h
      simpa [logFind, hq] using ih h

theorem logFind_append_single_ne (l : AlertLog) {k k2 : List Char}
    (h : k2 ≠ k) :
    logFind (l ++ [(k, true)]) k2 = logFind l k2 := by
  have hk : ¬(k = k2) := fun he => h he.symm
  induction l with
  | nil => simp [logFind, hk]
  | cons q t ih =>
    obtain ⟨k3, v⟩ := q
    by_cases hq2 : k3 = k2 <;> simp [logFind, hq2, ih]

theorem logFind_logSet_self (l : AlertLog) (k : List Char) :
    logFind (logSet l k) k = some true := by
  unfold logSet
  split
  · exact logFind_mapSet_self (by assumption)
  · rename_i h
    refine logFind_append_single_self ?_
    cases hf : logFind l k with
    | none => rfl
    | some b => exact absurd (by simp [hf]) h

theorem logFind_logSet_ne (l : AlertLog) {k k2 : List Char} (h : k2 ≠ k) :
    logFind (logSet l k) k2 = logFind l k2 := by
  unfold logSet
  split
  · exact logFind_mapSet_ne l h
  · exact logFind_append_single_ne l h

theorem logSet_entry_shape {l : AlertLog} {k : List Char} :
    ∀ p ∈ logSet l k, p.1 = k → p = (k, true) := by
  intro p hp hk
  unfold logSet at hp
  split at hp
  · rcases List.mem_map.mp hp with ⟨q, _, rfl⟩
    obtain ⟨k2, v⟩ := q
    by_cases hq : k2 = k
    · rw [setEntry_pos hq]
    · rw [setEntry_neg hq] at hk ⊢
      exact absurd hk hq
  · rename_i h
    rcases List.mem_append.mp hp with hp | hp
    · have := logFind_isSome_of_mem hp
      rw [hk] at this
      exact absurd this h
    · simpa using List.mem_singleton.mp hp

theorem mapSet_fix {l : AlertLog} {k : List Char}
    (h : ∀ p ∈ l, p.1 = k → p = (k, true)) :
    l.map (setEntry k) = l := by
  induction l with
  | nil => rfl
  | cons q t ih =>
    obtain ⟨k2, v⟩ := q
    have hq : setEntry k (k2, v) = (k2, v) := by
      by_cases hqk : k2 = k
      · rw [setEntry_pos hqk, h (k2, v) (List.mem_cons_self _ _) hqk]
      · exact setEntry_neg hqk
    simp only [List.map_cons, hq]
    rw [ih (fun p hp hk => h p (List.mem_cons_of_mem _ hp) hk)]

theorem logSet_of_isSome {l : AlertLog} {k : List Char}
    (h : (logFind l k).isSome = true) : logSet l k = l.map (setEntry k) := by
  unfold logSet
  rw [if_pos h]

theorem logSet_idem (l : AlertLog) (k : List Char) :
    logSet (logSet l k) k = logSet l k := by
  have hs : (logFind (logSet l k) k).isSome = true := by
    rw [logFind_logSet_self]; rfl
  rw [logSet_of_isSome hs]
  exact mapSet_fix logSet_entry_shape

/-- Claim C7: the dedup lifecycle.  A missing store file or an absent
key reads as false; marking a key (once or twice) makes it read true;
marking is idempotent on the persisted state; a key never marked stays
false. -/
theorem dedup_lifecycle (st : Option AlertLog) (s ty d s2 ty2 d2 : List Char)
    (habs : logFind (load_alert_log st) (dedupKey s ty d) = none)
    (hne : dedupKey s2 ty2 d2 ≠ dedupKey s ty d) :
    already_alerted none s ty d = false ∧
    already_alerted st s ty d = false ∧
    already_alerted (mark_alerted st s ty d) s ty d = true ∧
    already_alerted (mark_alerted (mark_alerted st s ty d) s ty d) s ty d
      = true ∧
    mark_alerted (mark_alerted st s ty d) s ty d = mark_alerted st s ty d ∧
    already_alerted (mark_alerted none s ty d) s2 ty2 d2 = false := by
  refine ⟨rfl, ?_, ?_, ?_, ?_, ?_⟩
  · simp [already_alerted, logGet, habs]
  · simp [already_alerted, mark_alerted, save_alert_log, load_alert_log,
      logGet, logFind_logSet_self]
  · simp [already_alerted, mark_alerted, save_alert_log, load_alert_log,
      logGet, logFind_logSet_self]
  · simp [mark_alerted, save_alert_log, load_alert_log, logSet_idem]
  · have hk : ¬(dedupKey s ty d = dedupKey s2 ty2 d2) := fun he => hne he.symm
    simp [already_alerted, mark_alerted, save_alert_log, load_alert_log,
      logGet, logFind_logSet_ne _ hne, logFind, hk]

/-- Witness for C7 at concrete store contents and keys. -/
theorem dedup_lifecycle_w :
    already_alerted none ("s").toList ("traffic_spike").toList ("d").toList
      = false ∧
    already_alerted (mark_alerted (some [(("x").toList, true)]) ("s").toList
        ("traffic_spike").toList ("d").toList) ("s").toList
        ("traffic_spike").toList ("d").toList = true := by
  have h := dedup_lifecycle (some [(("x").toList, true)]) ("s").toList
    ("traffic_spike").toList ("d").toList ("s2").toList
    ("error_rate").toList ("d").toList (by decide) (by decide)
  exact ⟨h.1, h.2.2.1⟩

/-- Claim C10: `mark_alerted` maps the given key to true, leaves every
other key's entry untouched, and never removes a key or resets one to
false. -/
theorem mark_alerted_frame (st : Option AlertLog) (s ty d k2 : List Char)
    (hne : k2 ≠ dedupKey s ty d) :
    logGet (load_alert_log (mark_alerted st s ty d)) (dedupKey s ty d)
      = true ∧
    logFind (load_alert_log (mark_alerted st s ty d)) k2 =
      logFind (load_alert_log st) k2 ∧
    (∀ k3, logGet (load_alert_log st) k3 = true →
      logGet (load_alert_log (mark_alerted st s ty d)) k3 = true) := by
  refine ⟨?_, ?_, ?_⟩
  · simp [mark_alerted, save_alert_log, load_alert_log, logGet,
      logFind_logSet_self]
  · simp [mark_alerted, save_alert_log, load_alert_log,
      logFind_logSet_ne _ hne]
  · intro k3 h3
    by_cases hk : k3 = dedupKey s ty d
    · subst hk
      simp [mark_alerted, save_alert_log, load_alert_log, logGet,
        logFind_logSet_self]
    · simpa [mark_alerted, save_alert_log, load_alert_log, logGet,
        logFind_logSet_ne _ hk] using h3

/-- Witness for C10 at a concrete store and keys. -/
theorem mark_alerted_frame_w :
    logGet (load_alert_log (mark_alerted (some [(("k2").toList, false)])
      ("s").toList ("traffic_spike").toList ("d").toList))
      (dedupKey ("s").toList ("traffic_spike").toList ("d").toList)
      = true ∧
    logFind (load_alert_log (mark_alerted (some [(("k2").toList, false)])
      ("s").toList ("traffic_spike").toList ("d").toList)) ("k2").toList =
      logFind (load_alert_log (some [(("k2").toList, false)]))
        ("k2").toList := by
  have h := mark_alerted_frame (some [(("k2").toList, false)]) ("s").toList
    ("traffic_spike").toList ("d").toList ("k2").toList (by decide)
  exact ⟨h.1, h.2.1⟩

/-! ### Lemmas and claims about the per-site pass -/

theorem dedupKey_ne_of_len {s d ty1 ty2 : List Char}
    (h : ty1.length ≠ ty2.length) :
    dedupKey s ty1 d ≠ dedupKey s ty2 d := by
  intro he
  apply h
  have hl := congrArg List.length he
  simp [dedupKey] at hl
  omega

theorem already_alerted_mark_ne {st : Option AlertLog}
    {s ty d s2 ty2 d2 : List Char}
    (h : dedupKey s2 ty2 d2 ≠ dedupKey s ty d) :
    already_alerted (mark_alerted st s ty d) s2 ty2 d2 =
      already_alerted st s2 ty2 d2 := by
  simp [already_alerted, mark_alerted, save_alert_log, load_alert_log,
    logGet, logFind_logSet_ne _ h]

/-- Claim C4: in trailing-window mode with more than four records the
baseline is the mean over the up-to-five records immediately preceding
the most recent one, and whenever that window holds fewer than three
records the computation falls back to the mean over all records but
the last. -/
theorem trailing_baseline_mean (recs recs2 : List MetricRecord)
    (hlen : 4 < recs.length)
    (hshort : (previousDays recs2).length < 3) :
    avg_visits recs =
      mean ((recs.dropLast.drop (recs.dropLast.length - 5)).map
        (fun r => (r.visits : ℚ))) ∧
    avg_visits recs2 = mean (recs2.dropLast.map (fun r => (r.visits : ℚ))) := by
  constructor
  · have hlen2 : 3 ≤ (previousDays recs).length := by
      unfold previousDays
      rw [List.length_drop, List.length_dropLast]
      omega
    rw [avg_visits, if_pos hlen2]
    unfold previousDays
    have he : recs.length - 6 = recs.dropLast.length - 5 := by
      rw [List.length_dropLast]
      omega
    rw [he]
  · rw [avg_visits, if_neg (by omega)]

/-- Witness for C4: six one-per-day records give the mean of the five
preceding ones; a two-record sequence falls back to all-but-last. -/
theorem trailing_baseline_mean_w :
    avg_visits [mkRec "2024-01-01" 10 90 3 none none,
      mkRec "2024-01-02" 20 90 3 none none,
      mkRec "2024-01-03" 30 90 3 none none,
      mkRec "2024-01-04" 40 90 3 none none,
      mkRec "2024-01-05" 50 90 3 none none,
      mkRec "2024-01-06" 99 90 3 none none] =
      mean ([mkRec "2024-01-01" 10 90 3 none none,
        mkRec "2024-01-02" 20 90 3 none none,
        mkRec "2024-01-03" 30 90 3 none none,
        mkRec "2024-01-04" 40 90 3 none none,
        mkRec "2024-01-05" 50 90 3 none none,
        mkRec "2024-01-06" 99 90 3 none none].dropLast.drop
          ([mkRec "2024-01-01" 10 90 3 none none,
            mkRec "2024-01-02" 20 90 3 none none,
            mkRec "2024-01-03" 30 90 3 none none,
            mkRec "2024-01-04" 40 90 3 none none,
            mkRec "2024-01-05" 50 90 3 none none,
            mkRec "2024-01-06" 99 90 3 none none].dropLast.length - 5)
          |>.map (fun r => (r.visits : ℚ))) ∧
    avg_visits [mkRec "2024-01-01" 7 90 3 none none,
      mkRec "2024-01-02" 99 90 3 none none] =
      mean ([mkRec "2024-01-01" 7 90 3 none none,
        mkRec "2024-01-02" 99 90 3 none none].dropLast.map
          (fun r => (r.visits : ℚ))) :=
  trailing_baseline_mean _ _ (by decide) (by decide)

theorem worstBy_none {l : List MetricRecord} (h : worstBy l = none) :
    l = [] := by
  cases l with
  | nil => rfl
  | cons r rest =>
    rw [worstBy] at h
    cases hw : worstBy rest with
    | none => rw [hw] at h; simp at h
    | some w2 => rw [hw] at h; simp at h

/-- The first-occurrence minimum property of the worst-period
selection. -/
theorem worstBy_spec {l : List MetricRecord} {w : MetricRecord}
    (h : worstBy l = some w) :
    ∃ i, l.get? i = some w ∧
      (∀ j r2, l.get? j = some r2 → w.hitPct ≤ r2.hitPct) ∧
      (∀ j r2, j < i → l.get? j = some r2 → w.hitPct < r2.hitPct) := by
  induction l generalizing w with
  | nil => simp [worstBy] at h
  | cons r rest ih =>
    rw [worstBy] at h
    cases hw : worstBy rest with
    | none =>
      rw [hw] at h
      have hr : rest = [] := worstBy_none hw
      subst hr
      simp only [Option.some.injEq] at h
      subst h
      refine ⟨0, rfl, ?_, ?_⟩
      · intro j r2 hj
        cases j with
        | zero =>
          simp only [List.get?_cons_zero, Option.some.injEq] at hj
          subst hj
          exact le_refl _
        | succ j => simp at hj
      · intro j r2 hj
        omega
    | some w2 =>
      rw [hw] at h
      simp only [Option.some.injEq] at h
      by_cases hc : w2.hitPct < r.hitPct
      · rw [if_pos hc] at h
        subst h
        obtain ⟨i2, hi2, hmin, hfirst⟩ := ih hw
        refine ⟨i2 + 1, by simpa using hi2, ?_, ?_⟩
        · intro j r2 hj
          cases j with
          | zero =>
            simp only [List.get?_cons_zero, Option.some.injEq] at hj
            subst hj
            exact le_of_lt hc
          | succ j =>
            simp only [List.get?_cons_succ] at hj
            exact hmin j r2 hj
        · intro j r2 hjlt hj
          cases j with
          | zero =>
            simp only [List.get?_cons_zero, Option.some.injEq] at hj
            subst hj
            exact hc
          | succ j =>
            simp only [List.get?_cons_succ] at hj
            exact hfirst j r2 (by omega) hj
      · rw [if_neg hc] at h
        subst h
        obtain ⟨i2, hi2, hmin, hfirst⟩ := ih hw
        refine ⟨0, rfl, ?_, ?_⟩
        · intro j r2 hj
          cases j with
          | zero =>
            simp only [List.get?_cons_zero, Option.some.injEq] at hj
            subst hj
            exact le_refl _
          | succ j =>
            simp only [List.get?_cons_succ] at hj
            exact le_trans (le_of_not_lt hc) (hmin j r2 hj)
        · intro j r2 hj
          omega

/-- Claim C9: for a non-empty record sequence a cache-efficiency signal
is emitted exactly when the mean cache-hit ratio is below the fixed
threshold of fifty, and the emitted signal carries the mean, the
bucketed severity, the five-record trend window, the first-occurrence
worst period of that window, and the most recent miss count. -/
theorem cache_efficiency_signal (recs : List MetricRecord)
    (recent : MetricRecord) (hlast : recs.getLast? = some recent) :
    ((∃ c, Signal.cache c ∈ cacheStep recs) ↔ avgHitPct recs < 50) ∧
    (∀ c, Signal.cache c ∈ cacheStep recs →
      c.avgPct = avgHitPct recs ∧
      c.severity = cacheSeverity (avgHitPct recs) ∧
      c.trend = (recs.drop (recs.length - 5)).map
        (fun r => (r.period, r.hitPct)) ∧
      (∃ i w, (recs.drop (recs.length - 5)).get? i = some w ∧
        c.worst = (w.period, w.hitPct) ∧
        (∀ j r2, (recs.drop (recs.length - 5)).get? j = some r2 →
          w.hitPct ≤ r2.hitPct) ∧
        (∀ j r2, j < i → (recs.drop (recs.length - 5)).get? j = some r2 →
          w.hitPct < r2.hitPct)) ∧
      c.recentMisses = recent.cacheMisses) := by
  have hne : recs ≠ [] := by
    intro he
    rw [he] at hlast
    simp at hlast
  by_cases havg : avgHitPct recs < 50
  · have htne : recs.drop (recs.length - 5) ≠ [] := by
      have h1 : 0 < recs.length := List.length_pos.mpr hne
      intro he
      have := congrArg List.length he
      rw [List.length_drop] at this
      simp at this
      omega
    cases hw : worstBy (recs.drop (recs.length - 5)) with
    | none => exact absurd (worstBy_none hw) htne
    | some w =>
      rw [cacheStep, if_pos havg, hw, hlast]
      constructor
      · exact ⟨fun _ => havg, fun _ => ⟨_, List.mem_singleton.mpr rfl⟩⟩
      · intro c hc
        have hc2 : c = ⟨avgHitPct recs, cacheSeverity (avgHitPct recs),
            (recs.drop (recs.length - 5)).map (fun r => (r.period, r.hitPct)),
            (w.period, w.hitPct), recent.cacheMisses⟩ := by
          have := List.mem_singleton.mp hc
          injection this
        subst hc2
        obtain ⟨i, hi, hmin, hfirst⟩ := worstBy_spec hw
        exact ⟨rfl, rfl, rfl, ⟨i, w, hi, rfl, hmin, hfirst⟩, rfl⟩
  · rw [cacheStep, if_neg havg]
    constructor
    · constructor
      · intro hc
        obtain ⟨c, hc⟩ := hc
        simp at hc
      · intro h
        exact absurd h havg
    · intro c hc
      simp at hc

/-- Witness for C9: five low-ratio records trigger the signal, and the
worst-period selection on the spec's example ratios picks the record
with value forty regardless of position. -/
theorem cache_efficiency_signal_w :
    (∃ c, Signal.cache c ∈ cacheStep
      [mkRec "2024-01-01" 10 45 3 none none,
       mkRec "2024-01-02" 10 46 3 none none,
       mkRec "2024-01-03" 10 47 3 none none,
       mkRec "2024-01-04" 10 48 3 none none,
       mkRec "2024-01-05" 10 44 7 none none]) ∧
    worstBy [mkRec "2024-01-01" 10 90 3 none none,
      mkRec "2024-01-02" 10 85 3 none none,
      mkRec "2024-01-03" 10 40 3 none none,
      mkRec "2024-01-04" 10 95 3 none none,
      mkRec "2024-01-05" 10 92 3 none none] =
      some (mkRec "2024-01-03" 10 40 3 none none) := by
  constructor
  · refine (cache_efficiency_signal
      [mkRec "2024-01-01" 10 45 3 none none,
       mkRec "2024-01-02" 10 46 3 none none,
       mkRec "2024-01-03" 10 47 3 none none,
       mkRec "2024-01-04" 10 48 3 none none,
       mkRec "2024-01-05" 10 44 7 none none]
      (mkRec "2024-01-05" 10 44 7 none none) rfl).1.mpr ?_
    rw [avgHitPct, if_neg (by simp)]
    norm_num [mean, mkRec]
  · decide

theorem spikeStep_mem {site : List Char} {t : ℚ} {recs : List MetricRecord}
    {recent : MetricRecord} {st : Option AlertLog} {x : Signal}
    (hx : x ∈ (spikeStep site t recs recent st).1) :
    x = Signal.spike ⟨recent.period, recent.visits, avg_visits recs,
      percent_increase recent.visits (avg_visits recs), t⟩ ∧
    already_alerted st site trafficSpikeType recent.period = false ∧
    0 < avg_visits recs ∧
    (recent.visits : ℚ) > avg_visits recs * (1 + t / 100) := by
  unfold spikeStep at hx
  by_cases h1 : already_alerted st site trafficSpikeType recent.period = false
  · rw [if_pos h1] at hx
    by_cases h2 : 0 < avg_visits recs ∧
        (recent.visits : ℚ) > avg_visits recs * (1 + t / 100)
    · rw [if_pos h2] at hx
      simp only [List.mem_singleton] at hx
      exact ⟨hx, h1, h2.1, h2.2⟩
    · rw [if_neg h2] at hx
      simp at hx
  · rw [if_neg h1] at hx
    simp at hx

theorem spikeStep_pos {site : List Char} {t : ℚ} {recs : List MetricRecord}
    {recent : MetricRecord} {st : Option AlertLog}
    (h1 : already_alerted st site trafficSpikeType recent.period = false)
    (h2 : 0 < avg_visits recs ∧
      (recent.visits : ℚ) > avg_visits recs * (1 + t / 100)) :
    spikeStep site t recs recent st =
      ([Signal.spike ⟨recent.period, recent.visits, avg_visits recs,
        percent_increase recent.visits (avg_visits recs), t⟩],
       mark_alerted st site trafficSpikeType recent.period) := by
  unfold spikeStep
  rw [if_pos h1, if_pos h2]

theorem spikeStep_keeps_other {site : List Char} {t : ℚ}
    {recs : List MetricRecord} {recent : MetricRecord} {st : Option AlertLog}
    {s2 ty2 d2 : List Char}
    (hne : dedupKey s2 ty2 d2 ≠
      dedupKey site trafficSpikeType recent.period) :
    already_alerted (spikeStep site t recs recent st).2 s2 ty2 d2 =
      already_alerted st s2 ty2 d2 := by
  unfold spikeStep
  by_cases h1 : already_alerted st site trafficSpikeType recent.period = false
  · rw [if_pos h1]
    by_cases h2 : 0 < avg_visits recs ∧
        (recent.visits : ℚ) > avg_visits recs * (1 + t / 100)
    · rw [if_pos h2]
      exact already_alerted_mark_ne hne
    · rw [if_neg h2]
  · rw [if_neg h1]

theorem errorStep_mem {site : List Char} {recent : MetricRecord}
    {st : Option AlertLog} {x : Signal}
    (hx : x ∈ (errorStep site recent st).1) :
    ∃ c4 c5, recent.http4xx = some c4 ∧ recent.http5xx = some c5 ∧
      x = Signal.errorRate ⟨recent.period, c4, c5⟩ ∧
      already_alerted st site errorRateType recent.period = false ∧
      (100 < c4 ∨ 10 < c5) := by
  unfold errorStep at hx
  split at hx
  · rename_i c4 c5 h4 h5
    refine ⟨c4, c5, h4, h5, ?_⟩
    by_cases h1 : already_alerted st site errorRateType recent.period = false
    · rw [if_pos h1] at hx
      by_cases h2 : 100 < c4 ∨ 10 < c5
      · rw [if_pos h2] at hx
        simp only [List.mem_singleton] at hx
        exact ⟨hx, h1, h2⟩
      · rw [if_neg h2] at hx
        simp at hx
    · rw [if_neg h1] at hx
      simp at hx
  · simp at hx

theorem errorStep_pos {site : List Char} {recent : MetricRecord}
    {st : Option AlertLog} {c4 c5 : Int}
    (h4 : recent.http4xx = some c4) (h5 : recent.http5xx = some c5)
    (h1 : already_alerted st site errorRateType recent.period = false)
    (h2 : 100 < c4 ∨ 10 < c5) :
    errorStep site recent st =
      ([Signal.errorRate ⟨recent.period, c4, c5⟩],
       mark_alerted st site errorRateType recent.period) := by
  unfold errorStep
  split
  · rename_i d4 d5 hd4 hd5
    rw [h4] at hd4
    rw [h5] at hd5
    injection hd4 with hd4
    injection hd5 with hd5
    subst hd4
    subst hd5
    rw [if_pos h1, if_pos h2]
  · rename_i hother
    exact (hother c4 c5 h4 h5).elim

theorem cacheStep_mem {recs : List MetricRecord} {x : Signal}
    (hx : x ∈ cacheStep recs) : ∃ c, x = Signal.cache c := by
  unfold cacheStep at hx
  by_cases h : avgHitPct recs < 50
  · rw [if_pos h] at hx
    cases hw : worstBy (recs.drop (recs.length - 5)) with
    | none =>
      rw [hw] at hx
      simp at hx
    | some w =>
      rw [hw] at hx
      cases hl : recs.getLast? with
      | none =>
        rw [hl] at hx
        simp at hx
      | some recent =>
        rw [hl] at hx
        simp only [List.mem_singleton] at hx
        exact ⟨_, hx⟩
  · rw [if_neg h] at hx
    simp at hx

theorem sitePass_eq {site : List Char} {t : ℚ} {recs : List MetricRecord}
    {recent : MetricRecord} {st : Option AlertLog}
    (hlen : 4 < recs.length) (hlast : recs.getLast? = some recent) :
    sitePass site t recs st =
      ((spikeStep site t recs recent st).1 ++
        (errorStep site recent (spikeStep site t recs recent st).2).1 ++
          cacheStep recs,
       (errorStep site recent (spikeStep site t recs recent st).2).2) := by
  unfold sitePass
  rw [if_pos hlen]
  split
  · rename_i r heq
    rw [hlast] at heq
    injection heq with heq
    subst heq
    simp only []
  · rename_i heq
    rw [hlast] at heq
    exact Option.noConfusion heq

/-- Claim C1: with more than four records and a fresh dedup entry, a
traffic-spike signal is emitted exactly when the trailing-window
baseline is positive and the recent visits exceed it by more than the
threshold percentage; the reported percent increase is the exact
rational formula when the baseline is positive and is zeroed (with no
signal) when the baseline is not positive. -/
theorem traffic_spike_detection (site : List Char) (t : ℚ)
    (recs : List MetricRecord) (recent : MetricRecord) (st : Option AlertLog)
    (hlen : 4 < recs.length) (hlast : recs.getLast? = some recent)
    (hded : already_alerted st site trafficSpikeType recent.period = false) :
    ((∃ sig, Signal.spike sig ∈ (sitePass site t recs st).1) ↔
      (0 < avg_visits recs ∧
        (recent.visits : ℚ) > avg_visits recs * (1 + t / 100))) ∧
    (∀ sig, Signal.spike sig ∈ (sitePass site t recs st).1 →
      sig.percentIncrease =
        (((recent.visits : ℚ) - avg_visits recs) / avg_visits recs) * 100 ∧
      sig.avgVisits = avg_visits recs ∧ sig.recentVisits = recent.visits ∧
      sig.thresholdPercent = t ∧ sig.date = recent.period) ∧
    (avg_visits recs ≤ 0 →
      (∀ sig, Signal.spike sig ∉ (sitePass site t recs st).1) ∧
      percent_increase recent.visits (avg_visits recs) = 0) := by
  rw [sitePass_eq hlen hlast]
  have hshape : ∀ sig : SpikeSignal,
      Signal.spike sig ∈ (spikeStep site t recs recent st).1 ++
        (errorStep site recent (spikeStep site t recs recent st).2).1 ++
          cacheStep recs →
      sig = ⟨recent.period, recent.visits, avg_visits recs,
        percent_increase recent.visits (avg_visits recs), t⟩ ∧
      0 < avg_visits recs ∧
      (recent.visits : ℚ) > avg_visits recs * (1 + t / 100) := by
    intro sig hm0
    rcases List.mem_append.mp hm0 with hm | hm2
    · rcases List.mem_append.mp hm with hm1 | hm1
      · obtain ⟨he, _, h2, h3⟩ := spikeStep_mem hm1
        refine ⟨?_, h2, h3⟩
        injection he
      · obtain ⟨c4, c5, _, _, he, _, _⟩ := errorStep_mem hm1
        cases he
    · obtain ⟨c, he⟩ := cacheStep_mem hm2
      cases he
  refine ⟨⟨?_, ?_⟩, ?_, ?_⟩
  · intro hex
    obtain ⟨sig, hm⟩ := hex
    exact (hshape sig hm).2
  · intro h2
    refine ⟨⟨recent.period, recent.visits, avg_visits recs,
      percent_increase recent.visits (avg_visits recs), t⟩, ?_⟩
    rw [spikeStep_pos hded h2]
    exact List.mem_append.mpr (Or.inl (List.mem_append.mpr
      (Or.inl (List.mem_singleton.mpr rfl))))
  · intro sig hm
    obtain ⟨he, h2, h3⟩ := hshape sig hm
    subst he
    refine ⟨?_, rfl, rfl, rfl, rfl⟩
    simp only [percent_increase, if_pos h2]
  · intro hle
    constructor
    · intro sig hm
      obtain ⟨_, h2, _⟩ := hshape sig hm
      exact absurd h2 (not_lt.mpr hle)
    · simp only [percent_increase, if_neg (not_lt.mpr hle)]

/-- Witness for C1: the end-to-end visit series from the spec fires a
spike signal at threshold twenty-five. -/
theorem traffic_spike_detection_w :
    ∃ sig, Signal.spike sig ∈ (sitePass ("Acme").toList 25
      [mkRec "2024-01-01" 1000 90 3 none none,
       mkRec "2024-01-02" 1050 90 3 none none,
       mkRec "2024-01-03" 980 90 3 none none,
       mkRec "2024-01-04" 1100 90 3 none none,
       mkRec "2024-01-05" 2000 90 3 none none] none).1 := by
  refine (traffic_spike_detection ("Acme").toList 25
    [mkRec "2024-01-01" 1000 90 3 none none,
     mkRec "2024-01-02" 1050 90 3 none none,
     mkRec "2024-01-03" 980 90 3 none none,
     mkRec "2024-01-04" 1100 90 3 none none,
     mkRec "2024-01-05" 2000 90 3 none none]
    (mkRec "2024-01-05" 2000 90 3 none none) none
    (by decide) rfl rfl).1.mpr ?_
  constructor <;>
  · rw [avg_visits, if_pos (by simp [previousDays, mkRec])]
    norm_num [previousDays, mean, mkRec]

/-- Claim C8: with both error columns present, a fresh dedup entry and
more than four records, an error-rate signal is emitted exactly when
the recent four-xx count exceeds one hundred or the recent five-xx
count exceeds ten, carrying both counts and the observation date; with
either column absent the check is silently skipped. -/
theorem error_rate_thresholds (site site2 : List Char) (t t2 : ℚ)
    (recs recs2 : List MetricRecord) (recent recent2 : MetricRecord)
    (st st2 : Option AlertLog) (c4 c5 : Int)
    (hlen : 4 < recs.length) (hlast : recs.getLast? = some recent)
    (h4 : recent.http4xx = some c4) (h5 : recent.http5xx = some c5)
    (hded : already_alerted st site errorRateType recent.period = false)
    (hlen2 : 4 < recs2.length) (hlast2 : recs2.getLast? = some recent2)
    (habs : recent2.http4xx = none ∨ recent2.http5xx = none) :
    ((∃ e, Signal.errorRate e ∈ (sitePass site t recs st).1) ↔
      (100 < c4 ∨ 10 < c5)) ∧
    (∀ e, Signal.errorRate e ∈ (sitePass site t recs st).1 →
      e.http4xx = c4 ∧ e.http5xx = c5 ∧ e.date = recent.period) ∧
    (∀ e, Signal.errorRate e ∉ (sitePass site2 t2 recs2 st2).1) := by
  have hkeys : dedupKey site errorRateType recent.period ≠
      dedupKey site trafficSpikeType recent.period :=
    dedupKey_ne_of_len (by decide)
  have hded2 : already_alerted (spikeStep site t recs recent st).2 site
      errorRateType recent.period = false := by
    rw [spikeStep_keeps_other hkeys]
    exact hded
  rw [sitePass_eq hlen hlast]
  have hshape : ∀ e : ErrorSignal,
      Signal.errorRate e ∈ (spikeStep site t recs recent st).1 ++
        (errorStep site recent (spikeStep site t recs recent st).2).1 ++
          cacheStep recs →
      e = ⟨recent.period, c4, c5⟩ ∧ (100 < c4 ∨ 10 < c5) := by
    intro e hm
    rcases List.mem_append.mp hm with hm | hm2
    · rcases List.mem_append.mp hm with hm1 | hm1
      · obtain ⟨he, _⟩ := spikeStep_mem hm1
        cases he
      · obtain ⟨d4, d5, hd4, hd5, he, _, hth⟩ := errorStep_mem hm1
        rw [h4] at hd4
        rw [h5] at hd5
        injection hd4 with hd4
        injection hd5 with hd5
        subst hd4
        subst hd5
        refine ⟨?_, hth⟩
        injection he
    · obtain ⟨c, he⟩ := cacheStep_mem hm2
      cases he
  refine ⟨⟨?_, ?_⟩, ?_, ?_⟩
  · intro hex
    obtain ⟨e, hm⟩ := hex
    exact (hshape e hm).2
  · intro h2
    refine ⟨⟨recent.period, c4, c5⟩, ?_⟩
    rw [errorStep_pos h4 h5 hded2 h2]
    exact List.mem_append.mpr (Or.inl (List.mem_append.mpr
      (Or.inr (List.mem_singleton.mpr rfl))))
  · intro e hm
    obtain ⟨he, _⟩ := hshape e hm
    subst he
    exact ⟨rfl, rfl, rfl⟩
  · rw [sitePass_eq hlen2 hlast2]
    intro e hm
    rcases List.mem_append.mp hm with hm | hm2
    · rcases List.mem_append.mp hm with hm1 | hm1
      · obtain ⟨he, _⟩ := spikeStep_mem hm1
        cases he
      · obtain ⟨d4, d5, hd4, hd5, _⟩ := errorStep_mem hm1
        rcases habs with h | h
        · rw [h] at hd4
          exact Option.noConfusion hd4
        · rw [h] at hd5
          exact Option.noConfusion hd5
    · obtain ⟨c, he⟩ := cacheStep_mem hm2
      cases he

/-- Witness for C8: a high four-xx count fires the error signal; the
same series without error columns is skipped. -/
theorem error_rate_thresholds_w :
    ∃ e, Signal.errorRate e ∈ (sitePass ("Acme").toList 25
      [mkRec "2024-01-01" 10 90 3 (some 1) (some 1),
       mkRec "2024-01-02" 10 90 3 (some 1) (some 1),
       mkRec "2024-01-03" 10 90 3 (some 1) (some 1),
       mkRec "2024-01-04" 10 90 3 (some 1) (some 1),
       mkRec "2024-01-05" 10 90 3 (some 500) (some 2)] none).1 :=
  (error_rate_thresholds ("Acme").toList ("Acme").toList 25 25
    [mkRec "2024-01-01" 10 90 3 (some 1) (some 1),
     mkRec "2024-01-02" 10 90 3 (some 1) (some 1),
     mkRec "2024-01-03" 10 90 3 (some 1) (some 1),
     mkRec "2024-01-04" 10 90 3 (some 1) (some 1),
     mkRec "2024-01-05" 10 90 3 (some 500) (some 2)]
    [mkRec "2024-01-01" 10 90 3 none none,
     mkRec "2024-01-02" 10 90 3 none none,
     mkRec "2024-01-03" 10 90 3 none none,
     mkRec "2024-01-04" 10 90 3 none none,
     mkRec "2024-01-05" 10 90 3 none none]
    (mkRec "2024-01-05" 10 90 3 (some 500) (some 2))
    (mkRec "2024-01-05" 10 90 3 none none) none none 500 2
    (by decide) rfl rfl rfl rfl (by decide) rfl (Or.inl rfl)).1.mpr
    (by decide)

theorem spikeStep_neg {site : List Char} {t : ℚ} {recs : List MetricRecord}
    {recent : MetricRecord} {st : Option AlertLog}
    (hcond : ¬(0 < avg_visits recs ∧
      (recent.visits : ℚ) > avg_visits recs * (1 + t / 100))) :
    spikeStep site t recs recent st = ([], st) := by
  unfold spikeStep
  by_cases h1 : already_alerted st site trafficSpikeType recent.period = false
  · rw [if_pos h1, if_neg hcond]
  · rw [if_neg h1]

theorem errorStep_skip {site : List Char} {recent : MetricRecord}
    {st : Option AlertLog} (h : recent.http4xx = none) :
    errorStep site recent st = ([], st) := by
  unfold errorStep
  split
  · rename_i d4 d5 hd4 hd5
    rw [h] at hd4
    exact Option.noConfusion hd4
  · rfl

theorem cacheStep_pos {recs : List MetricRecord} {w recent : MetricRecord}
    (h : avgHitPct recs < 50)
    (hw : worstBy (recs.drop (recs.length - 5)) = some w)
    (hl : recs.getLast? = some recent) :
    cacheStep recs = [Signal.cache ⟨avgHitPct recs,
      cacheSeverity (avgHitPct recs),
      (recs.drop (recs.length - 5)).map (fun r => (r.period, r.hitPct)),
      (w.period, w.hitPct), recent.cacheMisses⟩] := by
  unfold cacheStep
  rw [if_pos h, hw, hl]

/-- Claim C2 is refuted by the cache-efficiency path: with the cache
dedup entry already recorded for the site and date, a cache signal is
still dispatched by the pass. -/
theorem cache_alert_ignores_dedup_cex :
    logGet (load_alert_log (some [((dedupKey ("Acme").toList
        cacheEfficiencyType ("2024-01-05").toList), true)]))
      (dedupKey ("Acme").toList cacheEfficiencyType ("2024-01-05").toList)
      = true ∧
    ((sitePass ("Acme").toList 25
      [mkRec "2024-01-01" 10 10 3 none none,
       mkRec "2024-01-02" 10 10 3 none none,
       mkRec "2024-01-03" 10 10 3 none none,
       mkRec "2024-01-04" 10 10 3 none none,
       mkRec "2024-01-05" 10 10 3 none none]
      (some [((dedupKey ("Acme").toList cacheEfficiencyType
        ("2024-01-05").toList), true)])).1.any isCacheSignal) = true := by
  constructor
  · rfl
  · have havg : avg_visits
        [mkRec "2024-01-01" 10 10 3 none none,
         mkRec "2024-01-02" 10 10 3 none none,
         mkRec "2024-01-03" 10 10 3 none none,
         mkRec "2024-01-04" 10 10 3 none none,
         mkRec "2024-01-05" 10 10 3 none none] = 10 := by
      rw [avg_visits, if_pos (by simp [previousDays, mkRec])]
      norm_num [previousDays, mean, mkRec]
    rw [@sitePass_eq ("Acme").toList 25
      [mkRec "2024-01-01" 10 10 3 none none,
       mkRec "2024-01-02" 10 10 3 none none,
       mkRec "2024-01-03" 10 10 3 none none,
       mkRec "2024-01-04" 10 10 3 none none,
       mkRec "2024-01-05" 10 10 3 none none]
      (mkRec "2024-01-05" 10 10 3 none none)
      (some [((dedupKey ("Acme").toList cacheEfficiencyType
        ("2024-01-05").toList), true)]) (by decide) rfl]
    rw [spikeStep_neg (by rw [havg]; norm_num [mkRec])]
    rw [errorStep_skip rfl]
    rw [@cacheStep_pos
      [mkRec "2024-01-01" 10 10 3 none none,
       mkRec "2024-01-02" 10 10 3 none none,
       mkRec "2024-01-03" 10 10 3 none none,
       mkRec "2024-01-04" 10 10 3 none none,
       mkRec "2024-01-05" 10 10 3 none none]
      (mkRec "2024-01-01" 10 10 3 none none)
      (mkRec "2024-01-05" 10 10 3 none none) ?_ (by decide) rfl]
    · rfl
    · rw [avgHitPct, if_neg (by simp)]
      norm_num [mean, mkRec]

/-- Claim C2 (amended): the traffic-spike and error-rate paths each
check the dedup store before dispatching, independently of one another:
whenever the spike entry for the site and date is already true no spike
signal is dispatched, and whenever the error-rate entry is already true
no error-rate signal is dispatched, whatever the other entry holds; the
cache-efficiency path has no dedup gate. -/
theorem dedup_gating (site : List Char) (t : ℚ) (recs : List MetricRecord)
    (recent : MetricRecord) (st : Option AlertLog)
    (hlen : 4 < recs.length) (hlast : recs.getLast? = some recent) :
    (already_alerted st site trafficSpikeType recent.period = true →
      ∀ sig, Signal.spike sig ∉ (sitePass site t recs st).1) ∧
    (already_alerted st site errorRateType recent.period = true →
      ∀ e, Signal.errorRate e ∉ (sitePass site t recs st).1) := by
  rw [sitePass_eq hlen hlast]
  constructor
  · intro hsp sig hm
    rcases List.mem_append.mp hm with hm | hm2
    · rcases List.mem_append.mp hm with hm1 | hm1
      · obtain ⟨_, hded, _⟩ := spikeStep_mem hm1
        rw [hsp] at hded
        exact Bool.noConfusion hded
      · obtain ⟨c4, c5, _, _, he, _⟩ := errorStep_mem hm1
        cases he
    · obtain ⟨c, he⟩ := cacheStep_mem hm2
      cases he
  · intro her e hm
    rcases List.mem_append.mp hm with hm | hm2
    · rcases List.mem_append.mp hm with hm1 | hm1
      · obtain ⟨he, _⟩ := spikeStep_mem hm1
        cases he
      · obtain ⟨c4, c5, _, _, he, hded, _⟩ := errorStep_mem hm1
        rw [spikeStep_keeps_other (dedupKey_ne_of_len (by decide))] at hded
        rw [her] at hded
        exact Bool.noConfusion hded
    · obtain ⟨c, he⟩ := cacheStep_mem hm2
      cases he

/-- Witness for the amended C2: the first part at a store holding only
the spike key, the second at a store holding only the error-rate key
while the spike path fires and marks the store before the error check. -/
theorem dedup_gating_w :
    (∀ sig, Signal.spike sig ∉ (sitePass ("Acme").toList 25
      [mkRec "2024-01-01" 1000 90 3 (some 500) (some 50),
       mkRec "2024-01-02" 1050 90 3 (some 500) (some 50),
       mkRec "2024-01-03" 980 90 3 (some 500) (some 50),
       mkRec "2024-01-04" 1100 90 3 (some 500) (some 50),
       mkRec "2024-01-05" 2000 90 3 (some 500) (some 50)]
      (some [((dedupKey ("Acme").toList trafficSpikeType
          ("2024-01-05").toList), true)])).1) ∧
    (∀ e, Signal.errorRate e ∉ (sitePass ("Acme").toList 25
      [mkRec "2024-01-01" 1000 90 3 (some 500) (some 50),
       mkRec "2024-01-02" 1050 90 3 (some 500) (some 50),
       mkRec "2024-01-03" 980 90 3 (some 500) (some 50),
       mkRec "2024-01-04" 1100 90 3 (some 500) (some 50),
       mkRec "2024-01-05" 2000 90 3 (some 500) (some 50)]
      (some [((dedupKey ("Acme").toList errorRateType
          ("2024-01-05").toList), true)])).1) :=
  ⟨(dedup_gating ("Acme").toList 25
      [mkRec "2024-01-01" 1000 90 3 (some 500) (some 50),
       mkRec "2024-01-02" 1050 90 3 (some 500) (some 50),
       mkRec "2024-01-03" 980 90 3 (some 500) (some 50),
       mkRec "2024-01-04" 1100 90 3 (some 500) (some 50),
       mkRec "2024-01-05" 2000 90 3 (some 500) (some 50)]
      (mkRec "2024-01-05" 2000 90 3 (some 500) (some 50))
      (some [((dedupKey ("Acme").toList trafficSpikeType
          ("2024-01-05").toList), true)])
      (by decide) rfl).1 (by decide),
   (dedup_gating ("Acme").toList 25
      [mkRec "2024-01-01" 1000 90 3 (some 500) (some 50),
       mkRec "2024-01-02" 1050 90 3 (some 500) (some 50),
       mkRec "2024-01-03" 980 90 3 (some 500) (some 50),
       mkRec "2024-01-04" 1100 90 3 (some 500) (some 50),
       mkRec "2024-01-05" 2000 90 3 (some 500) (some 50)]
      (mkRec "2024-01-05" 2000 90 3 (some 500) (some 50))
      (some [((dedupKey ("Acme").toList errorRateType
          ("2024-01-05").toList), true)])
      (by decide) rfl).2 (by decide)⟩

/-- Claim C3 (spec-modelled): when at least three earlier records share
the most recent record's day of week, the weekly baseline is the mean
of the three most recent such matches. -/
theorem weekday_baseline_mean3 (recs : List WeeklyRecord)
    (recent : WeeklyRecord) (hlast : recs.getLast? = some recent)
    (hm : 3 ≤ (recs.dropLast.filter
      (fun r => decide (r.weekday = recent.weekday))).length) :
    weekday_baseline recs =
      mean (((recs.dropLast.filter
        (fun r => decide (r.weekday = recent.weekday))).drop
          ((recs.dropLast.filter
            (fun r => decide (r.weekday = recent.weekday))).length - 3)).map
        (fun r => (r.visits : ℚ))) := by
  unfold weekday_baseline
  split
  · rename_i heq
    rw [hlast] at heq
    exact Option.noConfusion heq
  · rename_i r heq
    rw [hlast] at heq
    injection heq with heq
    subst heq
    simp only []
    rw [if_pos hm]

/-- Witness for C3: the ten-record same-weekday series has baseline one
hundred twenty. -/
theorem weekday_baseline_mean3_w : weekday_baseline exWeekly = 120 := by
  have h := weekday_baseline_mean3 exWeekly ⟨(0 : Fin 7), 999⟩ rfl (by decide)
  rw [h]
  norm_num [exWeekly, mean]

/-! ### Lemmas for the parser round trip -/

theorem splitOnChar_no_sep {sep : Char} {l : List Char}
    (h : ∀ c ∈ l, ¬(c = sep)) : splitOnChar sep l = [l] := by
  induction l with
  | nil => rfl
  | cons c cs ih =>
    rw [splitOnChar, if_neg (h c (List.mem_cons_self _ _))]
    rw [ih (fun c2 hc2 => h c2 (List.mem_cons_of_mem _ hc2))]

theorem splitOnChar_append {sep : Char} {l rest : List Char}
    (h : ∀ c ∈ l, ¬(c = sep)) :
    splitOnChar sep (l ++ sep :: rest) = l :: splitOnChar sep rest := by
  induction l with
  | nil => simp [splitOnChar]
  | cons c cs ih =>
    rw [List.cons_append, splitOnChar,
      if_neg (h c (List.mem_cons_self _ _))]
    rw [ih (fun c2 hc2 => h c2 (List.mem_cons_of_mem _ hc2))]

theorem splitOnChar_intercalate {ls : List (List Char)}
    (hne : ls ≠ []) (h : ∀ l ∈ ls, ∀ c ∈ l, ¬(c = '
')) :
    splitOnChar '
' (intercalateNl ls) = ls := by
  induction ls with
  | nil => exact absurd rfl hne
  | cons l rest ih =>
    cases rest with
    | nil =>
      rw [intercalateNl]
      exact splitOnChar_no_sep (h l (List.mem_cons_self _ _))
    | cons g rest2 =>
      rw [intercalateNl, splitOnChar_append (h l (List.mem_cons_self _ _))]
      rw [ih (by simp) (fun l2 hl2 => h l2 (List.mem_cons_of_mem _ hl2))]

theorem splitlines_intercalate {ls : List (List Char)}
    (hne : ls ≠ []) (h : ∀ l ∈ ls, ∀ c ∈ l, ¬(c = '
'))
    (hlast : ls.getLast? ≠ some ([] : List Char)) :
    splitlinesChar (intercalateNl ls) = ls := by
  unfold splitlinesChar
  rw [splitOnChar_intercalate hne h]
  rw [if_neg hlast]

theorem dropWhile_eq_self_of_head {l : List Char}
    (h : ∀ c, l.head? = some c → ¬(isWs c = true)) :
    l.dropWhile isWs = l := by
  cases l with
  | nil => rfl
  | cons c cs =>
    rw [List.dropWhile_cons]
    rw [if_neg (h c rfl)]

theorem strip_eq_self {l : List Char}
    (hh : ∀ c, l.head? = some c → ¬(isWs c = true))
    (hl : ∀ c, l.getLast? = some c → ¬(isWs c = true)) :
    strip l = l := by
  unfold strip
  rw [dropWhile_eq_self_of_head hh]
  rw [dropWhile_eq_self_of_head (fun c hc => hl c (by
    rw [← List.head?_reverse]
    exact hc))]
  exact List.reverse_reverse l

theorem bool_not_true {b : Bool} (h : (!b) = true) : b = false := by
  cases b
  · rfl
  · simp at h

theorem noDoubleWs_cons {c1 c2 : Char} {t : List Char}
    (h : noDoubleWs (c1 :: c2 :: t) = true) :
    (isWs c1 && isWs c2) = false ∧ noDoubleWs (c2 :: t) = true := by
  rw [noDoubleWs, Bool.and_eq_true] at h
  exact ⟨bool_not_true h.1, h.2⟩

theorem goodField_spec {f : List Char} (h : goodField f = true) :
    f ≠ [] ∧ noDoubleWs f = true ∧
    (∀ c, f.head? = some c → ¬(isWs c = true)) ∧
    (∀ c, f.getLast? = some c → ¬(isWs c = true)) ∧
    (∀ c ∈ f, ¬(c = '
')) := by
  unfold goodField at h
  simp only [Bool.and_eq_true] at h
  obtain ⟨⟨⟨⟨h1, h2⟩, h3⟩, h4⟩, h5⟩ := h
  refine ⟨by simpa using h1, h2, ?_, ?_, ?_⟩
  · intro c hc
    have he : f.headD 'x' = c := by
      rw [List.headD_eq_head?, hc]
      rfl
    rw [he] at h3
    simp [bool_not_true h3]
  · intro c hc
    have he : f.getLastD 'x' = c := by
      rw [List.getLastD_eq_getLast?, hc]
      rfl
    rw [he] at h4
    simp [bool_not_true h4]
  · intro c hc
    have hc2 := List.all_eq_true.mp h5 c hc
    simpa using hc2

theorem splitWs2_no_delim {t : List Char} (h : noDoubleWs t = true) :
    ∀ acc, splitWs2 t acc = [acc.reverse ++ t] := by
  induction t with
  | nil =>
    intro acc
    rw [splitWs2]
    simp
  | cons c1 t' ih =>
    intro acc
    cases t' with
    | nil =>
      rw [splitWs2]
      simp
    | cons c2 t'' =>
      have h2 := noDoubleWs_cons h
      rw [splitWs2, if_neg (by simp [h2.1])]
      rw [ih h2.2 (c1 :: acc)]
      simp

theorem splitWs2_delim {t : List Char} (hne : t ≠ [])
    (hnd : noDoubleWs t = true)
    (hlast : ∀ c, t.getLast? = some c → ¬(isWs c = true)) :
    ∀ acc rest, splitWs2 (t ++ ' ' :: ' ' :: rest) acc =
      (acc.reverse ++ t) :: splitWs2 (rest.dropWhile isWs) [] := by
  induction t with
  | nil => exact absurd rfl hne
  | cons c1 t' ih =>
    intro acc rest
    cases t' with
    | nil =>
      have hc1 : isWs c1 = false := by
        cases hw : isWs c1
        · rfl
        · exact absurd hw (hlast c1 rfl)
      simp only [List.cons_append, List.nil_append]
      rw [splitWs2, if_neg (by simp [hc1])]
      rw [splitWs2, if_pos (by rfl)]
      rw [List.dropWhile_cons, if_pos (by rfl)]
      simp
    | cons c2 t'' =>
      have h2 := noDoubleWs_cons hnd
      simp only [List.cons_append]
      rw [splitWs2, if_neg (by simp [h2.1])]
      rw [← List.cons_append, ih (by simp) h2.2
        (fun c hc => hlast c (by rw [List.getLast?_cons_cons]; exact hc))
        (c1 :: acc) rest]
      simp

theorem join2_head? {g : List Char} {rest : List (List Char)}
    (h : g ≠ []) : (join2 (g :: rest)).head? = g.head? := by
  cases rest with
  | nil => rw [join2]
  | cons r rs =>
    rw [join2]
    cases g with
    | nil => exact absurd rfl h
    | cons c cs => rfl

theorem join2_ne_nil {g : List Char} {rest : List (List Char)}
    (h : g ≠ []) : join2 (g :: rest) ≠ [] := by
  cases rest with
  | nil =>
    rw [join2]
    exact h
  | cons r rs =>
    rw [join2]
    cases g with
    | nil => exact absurd rfl h
    | cons c cs => simp

theorem getLastD_irrel {α : Type} {l : List α} (h : l ≠ []) (d1 d2 : α) :
    l.getLastD d1 = l.getLastD d2 := by
  induction l with
  | nil => exact absurd rfl h
  | cons a t ih =>
    cases t with
    | nil => rfl
    | cons b t2 => simp only [List.getLastD_cons]

theorem getLastD_mem {α : Type} {l : List α} (h : l ≠ []) (d : α) :
    l.getLastD d ∈ l := by
  induction l with
  | nil => exact absurd rfl h
  | cons a t ih =>
    cases t with
    | nil => exact List.mem_cons_self _ _
    | cons b t2 =>
      rw [List.getLastD_cons]
      rw [getLastD_irrel (by simp) a d]
      exact List.mem_cons_of_mem _ (ih (by simp))

theorem getLast?_cons_of_ne_nil {α : Type} {a : α} {l : List α}
    (h : l ≠ []) : (a :: l).getLast? = l.getLast? := by
  cases l with
  | nil => exact absurd rfl h
  | cons b t => exact List.getLast?_cons_cons

theorem join2_getLast? {fs : List (List Char)} (hne : fs ≠ [])
    (h : ∀ f ∈ fs, f ≠ []) :
    (join2 fs).getLast? = (fs.getLastD []).getLast? := by
  induction fs with
  | nil => exact absurd rfl hne
  | cons f rest ih =>
    cases rest with
    | nil => rfl
    | cons g rs =>
      rw [join2]
      rw [List.getLast?_append_of_ne_nil _ (by simp)]
      rw [List.getLast?_cons_cons]
      have h2 : join2 (g :: rs) ≠ [] :=
        join2_ne_nil (h g (List.mem_cons_of_mem _ (List.mem_cons_self _ _)))
      rw [getLast?_cons_of_ne_nil h2]
      rw [ih (by simp) (fun f2 hf2 => h f2 (List.mem_cons_of_mem _ hf2))]
      simp only [List.getLastD_cons]

/-- Splitting the two-space join of well-formed fields recovers the
fields. -/
theorem splitWs2_join2 {fs : List (List Char)} (hne : fs ≠ [])
    (h : ∀ f ∈ fs, goodField f = true) :
    splitWs2 (join2 fs) [] = fs := by
  induction fs with
  | nil => exact absurd rfl hne
  | cons f rest ih =>
    obtain ⟨hf0, hfnd, hfh, hfl, _⟩ :=
      goodField_spec (h f (List.mem_cons_self _ _))
    cases rest with
    | nil =>
      rw [join2]
      rw [splitWs2_no_delim hfnd []]
      rfl
    | cons g rs =>
      rw [join2]
      rw [splitWs2_delim hf0 hfnd hfl [] (join2 (g :: rs))]
      have hg0 : g ≠ [] :=
        (goodField_spec (h g (List.mem_cons_of_mem _
          (List.mem_cons_self _ _)))).1
      have hdw : (join2 (g :: rs)).dropWhile isWs = join2 (g :: rs) := by
        refine dropWhile_eq_self_of_head ?_
        intro c hc
        rw [join2_head? hg0] at hc
        exact (goodField_spec (h g (List.mem_cons_of_mem _
          (List.mem_cons_self _ _)))).2.2.1 c hc
      rw [hdw]
      rw [ih (by simp) (fun f2 hf2 => h f2 (List.mem_cons_of_mem _ hf2))]
      rfl

theorem goodRow_spec {r : List (List Char)} (h : goodRow r = true) :
    r ≠ [] ∧ (∀ f ∈ r, goodField f = true) ∧
    ¬((r.headD []).headD 'x' = '-') := by
  cases r with
  | nil => simp [goodRow] at h
  | cons f fs =>
    rw [goodRow, Bool.and_eq_true] at h
    refine ⟨by simp, ?_, ?_⟩
    · intro f2 hf2
      exact List.all_eq_true.mp h.1 f2 hf2
    · have h2 := bool_not_true h.2
      intro he
      have he2 : f.headD 'x' = '-' := he
      rw [he2] at h2
      simp at h2

/-- Stripping the join of a well-formed row is the identity. -/
theorem strip_join2 {r : List (List Char)} (hne : r ≠ [])
    (h : ∀ f ∈ r, goodField f = true) :
    strip (join2 r) = join2 r := by
  cases r with
  | nil => exact absurd rfl hne
  | cons f fs =>
    obtain ⟨hf0, _, hfh, _, _⟩ := goodField_spec (h f (List.mem_cons_self _ _))
    refine strip_eq_self ?_ ?_
    · intro c hc
      rw [join2_head? hf0] at hc
      exact hfh c hc
    · intro c hc
      rw [join2_getLast? (by simp)
        (fun f2 hf2 => (goodField_spec (h f2 hf2)).1)] at hc
      have hlast : (f :: fs).getLastD [] ∈ f :: fs :=
        getLastD_mem (by simp) []
      exact (goodField_spec (h _ hlast)).2.2.2.1 c hc

/-- The body-loop keeps exactly the well-formed rows whose field count
matches the header. -/
theorem keepRow_join2 {r : List (List Char)} {n : Nat}
    (h : goodRow r = true) :
    keepRow n (join2 r) =
      if r.length = n then some r else none := by
  obtain ⟨hne, hall, hdash⟩ := goodRow_spec h
  unfold keepRow
  rw [strip_join2 hne hall]
  have hj0 : join2 r ≠ [] := by
    cases r with
    | nil => exact absurd rfl hne
    | cons f fs =>
      exact join2_ne_nil (goodField_spec (hall f (List.mem_cons_self _ _))).1
  have hjd : ¬((join2 r).headD 'x' = '-') := by
    cases r with
    | nil => exact absurd rfl hne
    | cons f fs =>
      rw [List.headD_eq_head?,
        join2_head? (goodField_spec (hall f (List.mem_cons_self _ _))).1]
      rw [← List.headD_eq_head?]
      simpa [List.headD] using hdash
  rw [if_neg (by
    push_neg
    exact ⟨hj0, hjd⟩)]
  rw [splitWs2_join2 hne hall]

theorem startsWithChars_append (n r : List Char) :
    startsWithChars n (n ++ r) = true := by
  induction n with
  | nil => rfl
  | cons c cs ih =>
    rw [List.cons_append, startsWithChars]
    simp [ih]

theorem containsStr_of_starts {n l : List Char}
    (h : startsWithChars n l = true) : containsStr n l = true := by
  cases l with
  | nil =>
    cases n with
    | nil => rfl
    | cons c cs => simp [startsWithChars] at h
  | cons c cs =>
    rw [containsStr]
    simp [h]

theorem containsStr_cons_of {n cs : List Char} {c : Char}
    (h : containsStr n cs = true) : containsStr n (c :: cs) = true := by
  rw [containsStr]
  simp [h]

theorem containsStr_append_left (l : List Char) {n r : List Char}
    (h : containsStr n r = true) : containsStr n (l ++ r) = true := by
  induction l with
  | nil => simpa using h
  | cons c cs ih =>
    rw [List.cons_append]
    exact containsStr_cons_of ih

theorem containsStr_join2 {f : List Char} {fs : List (List Char)}
    (hm : f ∈ fs) : containsStr f (join2 fs) = true := by
  induction fs with
  | nil => cases hm
  | cons g rest ih =>
    rcases List.mem_cons.mp hm with rfl | hm2
    · cases rest with
      | nil =>
        rw [join2]
        refine containsStr_of_starts ?_
        have h2 := startsWithChars_append f []
        simpa using h2
      | cons r rs =>
        rw [join2]
        exact containsStr_of_starts (startsWithChars_append f _)
    · cases rest with
      | nil => cases hm2
      | cons r rs =>
        rw [join2]
        exact containsStr_append_left g
          (containsStr_cons_of (containsStr_cons_of (ih hm2)))

theorem getLast?_mem {α : Type} {l : List α} {a : α}
    (h : l.getLast? = some a) : a ∈ l := by
  induction l with
  | nil => simp at h
  | cons b t ih =>
    cases t with
    | nil =>
      have hb : b = a := by
        simpa using h
      rw [hb]
      exact List.mem_cons_self _ _
    | cons c t2 =>
      rw [List.getLast?_cons_cons] at h
      exact List.mem_cons_of_mem _ (ih h)

theorem join2_no_nl {fs : List (List Char)}
    (h : ∀ f ∈ fs, goodField f = true) :
    ∀ c ∈ join2 fs, ¬(c = '
') := by
  induction fs with
  | nil => simp [join2]
  | cons f rest ih =>
    cases rest with
    | nil => exact (goodField_spec (h f (List.mem_cons_self _ _))).2.2.2.2
    | cons g rs =>
      rw [join2]
      intro c hc
      rcases List.mem_append.mp hc with hc1 | hc2
      · exact (goodField_spec (h f (List.mem_cons_self _ _))).2.2.2.2 c hc1
      · rcases List.mem_cons.mp hc2 with rfl | hc3
        · simp
        · rcases List.mem_cons.mp hc3 with rfl | hc4
          · simp
          · exact ih (fun f2 hf2 => h f2 (List.mem_cons_of_mem _ hf2)) c hc4

theorem goodRow_join2_ne_nil {r : List (List Char)}
    (h : goodRow r = true) : join2 r ≠ [] := by
  obtain ⟨hne, hall, _⟩ := goodRow_spec h
  cases r with
  | nil => exact absurd rfl hne
  | cons f fs =>
    exact join2_ne_nil (goodField_spec (hall f (List.mem_cons_self _ _))).1

theorem filterMap_keepRow {hs : List (List Char)}
    {rows : List (List (List Char))}
    (h : ∀ r ∈ rows, goodRow r = true) :
    (rows.map join2).filterMap (keepRow hs.length) = goodOf hs rows := by
  induction rows with
  | nil => rfl
  | cons r rest ih =>
    rw [List.map_cons, List.filterMap_cons]
    rw [keepRow_join2 (h r (List.mem_cons_self _ _))]
    have ih2 := ih (fun r2 hr2 => h r2 (List.mem_cons_of_mem _ hr2))
    by_cases hlen : r.length = hs.length
    · rw [if_pos hlen]
      show r :: List.filterMap (keepRow hs.length) (List.map join2 rest) =
        goodOf hs (r :: rest)
      rw [ih2]
      unfold goodOf
      rw [List.filter_cons, if_pos (by simp [hlen])]
    · rw [if_neg hlen]
      show List.filterMap (keepRow hs.length) (List.map join2 rest) =
        goodOf hs (r :: rest)
      rw [ih2]
      unfold goodOf
      rw [List.filter_cons, if_neg (by simp [hlen])]

/-- Structural extraction on a rendered well-formed table: the header
is recovered, the separator skipped, and exactly the rows whose field
count matches the header are kept. -/
theorem stage1_render {hs : List (List Char)} {sep : List Char}
    {rows : List (List (List Char))}
    (hgh : ∀ f ∈ hs, goodField f = true) (hne : hs ≠ [])
    (hper : periodHeader ∈ hs) (hrat : cacheHitHeader ∈ hs)
    (hsep : ∀ c ∈ sep, ¬(c = '
'))
    (hrows : ∀ r ∈ rows, goodRow r = true)
    (hrne : rows ≠ [])
    (hgood : goodOf hs rows ≠ []) :
    stage1 (renderTable hs sep rows) = some ⟨hs, goodOf hs rows⟩ := by
  unfold stage1 renderTable
  rw [splitlines_intercalate (by simp) ?hnl ?hlast]
  case hnl =>
    intro l hl
    rcases List.mem_cons.mp hl with rfl | hl2
    · exact join2_no_nl hgh
    · rcases List.mem_cons.mp hl2 with rfl | hl3
      · exact hsep
      · obtain ⟨r, hr, rfl⟩ := List.mem_map.mp hl3
        exact join2_no_nl (goodRow_spec (hrows r hr)).2.1
  case hlast =>
    intro heq
    rw [getLast?_cons_of_ne_nil (by simp),
      getLast?_cons_of_ne_nil (by simpa using hrne)] at heq
    obtain ⟨r, hr, hjr⟩ := List.mem_map.mp (getLast?_mem heq)
    exact goodRow_join2_ne_nil (hrows r hr) hjr
  rw [findHeader, if_pos (by
    rw [containsBoth]
    simp [containsStr_join2 hper, containsStr_join2 hrat])]
  simp only [List.drop_one, List.tail_cons]
  rw [strip_join2 hne hgh, splitWs2_join2 hne hgh]
  rw [filterMap_keepRow hrows]
  rw [if_neg hgood]

/-! ### Lemmas for the coercion stages -/

theorem get?_of_mem {α : Type} {a : α} {l : List α} (h : a ∈ l) :
    ∃ i, l.get? i = some a := by
  induction l with
  | nil => cases h
  | cons b t ih =>
    rcases List.mem_cons.mp h with rfl | h2
    · exact ⟨0, rfl⟩
    · obtain ⟨i, hi⟩ := ih h2
      exact ⟨i + 1, hi⟩

theorem get?_some_of_lt {α : Type} {l : List α} {i : Nat}
    (h : i < l.length) : ∃ a, l.get? i = some a := by
  induction l generalizing i with
  | nil => simp at h
  | cons b t ih =>
    cases i with
    | zero => exact ⟨b, rfl⟩
    | succ i2 => exact ih (by simpa using h)

theorem mem_of_get? {α : Type} {l : List α} {i : Nat} {a : α}
    (h : l.get? i = some a) : a ∈ l := by
  induction l generalizing i with
  | nil => simp at h
  | cons b t ih =>
    cases i with
    | zero =>
      simp only [List.get?_cons_zero, Option.some.injEq] at h
      rw [← h]
      exact List.mem_cons_self _ _
    | succ i2 =>
      rw [List.get?_cons_succ] at h
      exact List.mem_cons_of_mem _ (ih h)

theorem colIdx_get? {col : List Char} {header : List (List Char)}
    (h : col ∈ header) : header.get? (colIdx col header) = some col := by
  induction header with
  | nil => cases h
  | cons f t ih =>
    rw [colIdx]
    by_cases hf : f = col
    · rw [if_pos hf, hf]
      rfl
    · rw [if_neg hf]
      rcases List.mem_cons.mp h with rfl | h2
      · exact absurd rfl hf
      · rw [List.get?_cons_succ]
        exact ih h2

theorem colIdx_inj {a b : List Char} {header : List (List Char)}
    (ha : a ∈ header) (hb : b ∈ header)
    (h : colIdx a header = colIdx b header) : a = b := by
  have h1 := colIdx_get? ha
  have h2 := colIdx_get? hb
  rw [h] at h1
  rw [h1] at h2
  injection h2

theorem mapM_some_length {α β : Type} {f : α → Option β} :
    ∀ {l : List α} {l2 : List β}, l.mapM f = some l2 → l2.length = l.length := by
  intro l
  induction l with
  | nil =>
    intro l2 h
    simp only [List.mapM_nil] at h
    injection h with h
    rw [← h]
    rfl
  | cons a t ih =>
    intro l2 h
    rw [List.mapM_cons] at h
    cases hfa : f a with
    | none => rw [hfa] at h; cases h
    | some b =>
      rw [hfa] at h
      cases hmt : t.mapM f with
      | none => rw [hmt] at h; cases h
      | some bs =>
        rw [hmt] at h
        simp only [Option.bind_eq_bind, Option.bind_some] at h
        injection h with h
        rw [← h]
        simp [ih hmt]

theorem mapM_some_get {α β : Type} {f : α → Option β} :
    ∀ {l : List α} {l2 : List β}, l.mapM f = some l2 →
      ∀ i a, l.get? i = some a → ∃ b, f a = some b ∧ l2.get? i = some b := by
  intro l
  induction l with
  | nil =>
    intro l2 h i a ha
    simp at ha
  | cons a0 t ih =>
    intro l2 h i a ha
    rw [List.mapM_cons] at h
    cases hfa : f a0 with
    | none => rw [hfa] at h; cases h
    | some b =>
      rw [hfa] at h
      cases hmt : t.mapM f with
      | none => rw [hmt] at h; cases h
      | some bs =>
        rw [hmt] at h
        simp only [Option.bind_eq_bind, Option.bind_some] at h
        injection h with h
        cases i with
        | zero =>
          simp only [List.get?_cons_zero, Option.some.injEq] at ha
          subst ha
          exact ⟨b, hfa, by rw [← h]; rfl⟩
        | succ i2 =>
          rw [List.get?_cons_succ] at ha
          obtain ⟨b2, hb2, hg⟩ := ih hmt i2 a ha
          refine ⟨b2, hb2, ?_⟩
          rw [← h]
          rw [List.get?_cons_succ]
          exact hg

theorem mapM_isSome {α β : Type} {f : α → Option β} :
    ∀ {l : List α}, (∀ a ∈ l, (f a).isSome = true) →
      ∃ l2, l.mapM f = some l2 := by
  intro l
  induction l with
  | nil => exact fun _ => ⟨[], rfl⟩
  | cons a t ih =>
    intro h
    have ha := h a (List.mem_cons_self _ _)
    cases hfa : f a with
    | none => rw [hfa] at ha; cases ha
    | some b =>
      obtain ⟨bs, hbs⟩ := ih (fun a2 h2 => h a2 (List.mem_cons_of_mem _ h2))
      refine ⟨b :: bs, ?_⟩
      rw [List.mapM_cons, hfa, hbs]
      rfl

theorem mapM_none_of_mem {α β : Type} {f : α → Option β} {a : α} :
    ∀ {l : List α}, a ∈ l → f a = none → l.mapM f = none := by
  intro l
  induction l with
  | nil => intro h; cases h
  | cons b t ih =>
    intro hm hfa
    rw [List.mapM_cons]
    rcases List.mem_cons.mp hm with rfl | h2
    · rw [hfa]
      rfl
    · cases hfb : f b with
      | none => rfl
      | some c =>
        rw [ih h2 hfa]
        rfl

theorem coerceCellAt_spec {f : Cell → Option Cell} {j : Nat}
    {r r2 : List Cell} (h : coerceCellAt f j r = some r2) :
    r2.length = r.length ∧ (∀ k, k ≠ j → r2.get? k = r.get? k) ∧
    ∃ c c2, r.get? j = some c ∧ f c = some c2 ∧ r2.get? j = some c2 := by
  unfold coerceCellAt at h
  cases hj : r.get? j with
  | none =>
    rw [hj] at h
    exact Option.noConfusion h
  | some c =>
    rw [hj] at h
    have h2 : Option.map (fun c2 => r.set j c2) (f c) = some r2 := h
    cases hfc : f c with
    | none =>
      rw [hfc] at h2
      exact Option.noConfusion h2
    | some c2 =>
      rw [hfc] at h2
      simp only [Option.map_some'] at h2
      injection h2 with h2
      subst h2
      refine ⟨List.length_set _ _ _, ?_, c, c2, rfl, hfc, ?_⟩
      · intro k hk
        exact List.get?_set_ne _ _ (fun he => hk he.symm)
      · rw [List.get?_set_eq, hj]
        rfl

theorem coerceCellAt_isSome {f : Cell → Option Cell} {j : Nat}
    {r : List Cell} {c : Cell} (hc : r.get? j = some c)
    (hf : (f c).isSome = true) : (coerceCellAt f j r).isSome = true := by
  unfold coerceCellAt
  rw [hc]
  show (Option.map (fun c2 => r.set j c2) (f c)).isSome = true
  cases hfc : f c with
  | none =>
    rw [hfc] at hf
    cases hf
  | some c2 => rfl

theorem coerceColumn_spec {f : Cell → Option Cell} {j : Nat}
    {rows rows2 : List (List Cell)}
    (h : coerceColumn f j rows = some rows2) :
    rows2.length = rows.length ∧
    ∀ i r, rows.get? i = some r → ∃ r2, rows2.get? i = some r2 ∧
      r2.length = r.length ∧ (∀ k, k ≠ j → r2.get? k = r.get? k) ∧
      ∃ c c2, r.get? j = some c ∧ f c = some c2 ∧ r2.get? j = some c2 := by
  refine ⟨mapM_some_length h, ?_⟩
  intro i r hr
  obtain ⟨r2, hfr, hg⟩ := mapM_some_get h i r hr
  obtain ⟨h1, h2, h3⟩ := coerceCellAt_spec hfr
  exact ⟨r2, hg, h1, h2, h3⟩

theorem coerceColumn_isSome {f : Cell → Option Cell} {j : Nat}
    {rows : List (List Cell)}
    (h : ∀ r ∈ rows, ∃ c, r.get? j = some c ∧ (f c).isSome = true) :
    ∃ rows2, coerceColumn f j rows = some rows2 := by
  refine mapM_isSome ?_
  intro r hr
  obtain ⟨c, hc, hf⟩ := h r hr
  exact coerceCellAt_isSome hc hf

theorem coerceColumn_none {f : Cell → Option Cell} {j : Nat}
    {rows : List (List Cell)} {r : List Cell} (hr : r ∈ rows)
    (h : coerceCellAt f j r = none) : coerceColumn f j rows = none :=
  mapM_none_of_mem hr h

/-- The integer-column loop on rows whose cells at the selected columns
are parseable strings: it succeeds, converts exactly those cells and
leaves every other position unchanged. -/
theorem foldNumeric_ok {header : List (List Char)} :
    ∀ (cols : List (List Char)) (rows : List (List Cell)),
    cols.Nodup →
    (∀ col ∈ cols, col ∈ header → colCount col header = 1) →
    (∀ col ∈ cols, col ∈ header → ∀ r ∈ rows,
      ∃ s, r.get? (colIdx col header) = some (Cell.str s) ∧
        (intCellParse (Cell.str s)).isSome = true) →
    ∃ rows2, cols.foldlM (numericStep header) rows = some rows2 ∧
      rows2.length = rows.length ∧
      (∀ i r, rows.get? i = some r → ∃ r2, rows2.get? i = some r2 ∧
        r2.length = r.length ∧
        (∀ k, (∀ col ∈ cols, col ∈ header → colIdx col header ≠ k) →
          r2.get? k = r.get? k) ∧
        (∀ col ∈ cols, col ∈ header →
          ∃ s c2, r.get? (colIdx col header) = some (Cell.str s) ∧
            intCellParse (Cell.str s) = some c2 ∧
            r2.get? (colIdx col header) = some c2)) := by
  intro cols
  induction cols with
  | nil =>
    intro rows _ _ _
    refine ⟨rows, rfl, rfl, ?_⟩
    intro i r hr
    exact ⟨r, hr, rfl, fun k _ => rfl, fun col hcol => absurd hcol
      (List.not_mem_nil col)⟩
  | cons col cols2 ih =>
    intro rows hnd hcnt hcells
    by_cases hcol : col ∈ header
    · have hcnt1 := hcnt col (List.mem_cons_self _ _) hcol
      obtain ⟨rows1, hcc⟩ := coerceColumn_isSome (fun r hr => by
        obtain ⟨s, hs, hp⟩ :=
          hcells col (List.mem_cons_self _ _) hcol r hr
        exact ⟨Cell.str s, hs, hp⟩)
      obtain ⟨hlen1, hrowcorr⟩ := coerceColumn_spec hcc
      have hstep : numericStep header rows col = some rows1 := by
        unfold numericStep
        rw [if_pos hcol, if_pos hcnt1, hcc]
      have hidx_ne : ∀ col2 ∈ cols2, col2 ∈ header →
          colIdx col2 header ≠ colIdx col header := by
        intro col2 hm2 hh2 he
        have : col2 = col := colIdx_inj hh2 hcol he
        rw [this] at hm2
        exact (List.nodup_cons.mp hnd).1 hm2
      have hcells2 : ∀ col2 ∈ cols2, col2 ∈ header → ∀ r1 ∈ rows1,
          ∃ s, r1.get? (colIdx col2 header) = some (Cell.str s) ∧
            (intCellParse (Cell.str s)).isSome = true := by
        intro col2 hm2 hh2 r1 hr1
        obtain ⟨i, hi⟩ := get?_of_mem hr1
        have hil : i < rows.length := by
          rw [← hlen1]
          by_contra hge
          rw [List.get?_eq_none.mpr (Nat.le_of_not_lt hge)] at hi
          cases hi
        obtain ⟨r, hr⟩ := get?_some_of_lt hil
        obtain ⟨r1b, hr1b, _, hunch, _⟩ := hrowcorr i r hr
        rw [hi] at hr1b
        injection hr1b with hr1b
        subst hr1b
        obtain ⟨s, hs, hp⟩ := hcells col2 (List.mem_cons_of_mem _ hm2) hh2
          r (mem_of_get? hr)
        refine ⟨s, ?_, hp⟩
        rw [hunch (colIdx col2 header) (hidx_ne col2 hm2 hh2)]
        exact hs
      obtain ⟨rows2, hfold2, hlen2, hcorr2⟩ := ih rows1
        (List.nodup_cons.mp hnd).2
        (fun c2 h2 hh2 => hcnt c2 (List.mem_cons_of_mem _ h2) hh2)
        hcells2
      refine ⟨rows2, ?_, by rw [hlen2, hlen1], ?_⟩
      · rw [List.foldlM_cons, hstep]
        exact hfold2
      · intro i r hr
        obtain ⟨r1, hr1, hlenr1, hunch1, hcell1⟩ := hrowcorr i r hr
        obtain ⟨r2, hr2, hlenr2, hunch2, hcell2⟩ := hcorr2 i r1 hr1
        refine ⟨r2, hr2, by rw [hlenr2, hlenr1], ?_, ?_⟩
        · intro k hk
          rw [hunch2 k (fun c2 h2 hh2 =>
            hk c2 (List.mem_cons_of_mem _ h2) hh2)]
          exact hunch1 k (hk col (List.mem_cons_self _ _) hcol).symm
        · intro col2 hm2 hh2
          rcases List.mem_cons.mp hm2 with rfl | hm3
          · obtain ⟨s, hs, hp⟩ :=
              hcells col2 (List.mem_cons_self _ _) hh2 r (mem_of_get? hr)
            obtain ⟨c, c2, hc, hfc, hr1j⟩ := hcell1
            rw [hs] at hc
            injection hc with hc
            subst hc
            cases hpc : intCellParse (Cell.str s) with
            | none => rw [hpc] at hfc; cases hfc
            | some c3 =>
              rw [hpc] at hfc
              injection hfc with hfc
              subst hfc
              refine ⟨s, c3, hs, hpc, ?_⟩
              rw [hunch2 (colIdx col2 header) (fun c4 h4 hh4 =>
                hidx_ne c4 h4 hh4)]
              exact hr1j
          · obtain ⟨s, c3, hs1, hp2, hr2j⟩ := hcell2 col2 hm3 hh2
            refine ⟨s, c3, ?_, hp2, hr2j⟩
            rw [← hunch1 (colIdx col2 header) (hidx_ne col2 hm3 hh2)]
            exact hs1
    · have hstep : numericStep header rows col = some rows := by
        unfold numericStep
        rw [if_neg hcol]
        rfl
      obtain ⟨rows2, hfold2, hlen2, hcorr2⟩ := ih rows
        (List.nodup_cons.mp hnd).2
        (fun c2 h2 hh2 => hcnt c2 (List.mem_cons_of_mem _ h2) hh2)
        (fun c2 h2 hh2 => hcells c2 (List.mem_cons_of_mem _ h2) hh2)
      refine ⟨rows2, ?_, hlen2, ?_⟩
      · rw [List.foldlM_cons, hstep]
        exact hfold2
      · intro i r hr
        obtain ⟨r2, hr2, hlenr2, hunch2, hcell2⟩ := hcorr2 i r hr
        refine ⟨r2, hr2, hlenr2, ?_, ?_⟩
        · intro k hk
          exact hunch2 k (fun c2 h2 hh2 =>
            hk c2 (List.mem_cons_of_mem _ h2) hh2)
        · intro col2 hm2 hh2
          rcases List.mem_cons.mp hm2 with rfl | hm3
          · exact absurd hh2 hcol
          · exact hcell2 col2 hm3 hh2

theorem get?_some_lt {α : Type} {l : List α} {i : Nat} {a : α}
    (h : l.get? i = some a) : i < l.length := by
  induction l generalizing i with
  | nil => simp at h
  | cons b t ih =>
    cases i with
    | zero => simp
    | succ i2 =>
      rw [List.get?_cons_succ] at h
      have := ih h
      simpa using Nat.succ_lt_succ this

theorem colIdx_lt {col : List Char} {header : List (List Char)}
    (h : col ∈ header) : colIdx col header < header.length :=
  get?_some_lt (colIdx_get? h)

theorem colCount_eq_zero_of_not_mem {col : List Char}
    {header : List (List Char)} (h : col ∉ header) :
    colCount col header = 0 := by
  induction header with
  | nil => rfl
  | cons f t ih =>
    rw [colCount]
    rw [if_neg (fun he => h (by rw [← he]; exact List.mem_cons_self _ _))]
    rw [ih (fun hm => h (List.mem_cons_of_mem _ hm))]

theorem colCount_eq_one_of_nodup {col : List Char}
    {header : List (List Char)} (hnd : header.Nodup) (h : col ∈ header) :
    colCount col header = 1 := by
  induction header with
  | nil => cases h
  | cons f t ih =>
    rw [colCount]
    by_cases hf : f = col
    · rw [if_pos hf]
      subst hf
      rw [colCount_eq_zero_of_not_mem (List.nodup_cons.mp hnd).1]
    · rw [if_neg hf]
      rcases List.mem_cons.mp h with rfl | h2
      · exact absurd rfl hf
      · rw [ih (List.nodup_cons.mp hnd).2 h2]

theorem colCount_one_mem {col : List Char} {header : List (List Char)}
    (h : colCount col header = 1) : col ∈ header := by
  by_contra hm
  rw [colCount_eq_zero_of_not_mem hm] at h
  cases h

theorem keepRow_length {n : Nat} {line : List Char} {r : List (List Char)}
    (h : keepRow n line = some r) : r.length = n := by
  unfold keepRow at h
  simp only [] at h
  split at h
  · cases h
  · split at h
    · injection h with h
      subst h
      assumption
    · cases h

theorem stage1_rows_length {o : List Char} {rt : RawTable}
    (h : stage1 o = some rt) : ∀ r ∈ rt.rows, r.length = rt.header.length := by
  unfold stage1 at h
  cases hf : findHeader (splitlinesChar o) with
  | none =>
    rw [hf] at h
    cases h
  | some p =>
    rw [hf] at h
    obtain ⟨hl, rest⟩ := p
    simp only [] at h
    split at h
    · cases h
    · injection h with h
      subst h
      intro r hr
      obtain ⟨line, _, hkeep⟩ := List.mem_filterMap.mp hr
      exact keepRow_length hkeep

theorem foldNumeric_none {header : List (List Char)} :
    ∀ (cols : List (List Char)) (rows : List (List Cell))
      (col : List Char),
    col ∈ cols → col ∈ header → colCount col header = 1 →
    (∃ r ∈ rows, ∃ s, r.get? (colIdx col header) = some (Cell.str s) ∧
      intCellParse (Cell.str s) = none) →
    cols.foldlM (numericStep header) rows = none := by
  intro cols
  induction cols with
  | nil =>
    intro rows col hm
    cases hm
  | cons c cols2 ih =>
    intro rows col hm hch hcnt hbad
    rw [List.foldlM_cons]
    by_cases hc : c ∈ header
    · by_cases hcc : colCount c header = 1
      · have hstep : numericStep header rows c =
            coerceColumn intCellParse (colIdx c header) rows := by
          unfold numericStep
          rw [if_pos hc, if_pos hcc]
        rw [hstep]
        by_cases hceq : c = col
        · subst hceq
          obtain ⟨r, hr, s, hs, hparse⟩ := hbad
          rw [coerceColumn_none hr (by
            unfold coerceCellAt
            rw [hs]
            show Option.map _ (intCellParse (Cell.str s)) = none
            rw [hparse]
            rfl)]
          rfl
        · cases hcol : coerceColumn intCellParse (colIdx c header) rows with
          | none => rfl
          | some rows1 =>
            show cols2.foldlM (numericStep header) rows1 = none
            have hmem2 : col ∈ cols2 := by
              rcases List.mem_cons.mp hm with rfl | h2
              · exact absurd rfl hceq
              · exact h2
            refine ih rows1 col hmem2 hch hcnt ?_
            obtain ⟨r, hr, s, hs, hparse⟩ := hbad
            obtain ⟨i, hi⟩ := get?_of_mem hr
            obtain ⟨_, hcorr⟩ := coerceColumn_spec hcol
            obtain ⟨r1, hr1, _, hunch, _⟩ := hcorr i r hi
            refine ⟨r1, mem_of_get? hr1, s, ?_, hparse⟩
            rw [hunch (colIdx col header) (fun he =>
              hceq (colIdx_inj hch hc he).symm)]
            exact hs
      · have hstep : numericStep header rows c = none := by
          unfold numericStep
          rw [if_pos hc, if_neg hcc]
        rw [hstep]
        rfl
    · have hstep : numericStep header rows c = some rows := by
        unfold numericStep
        rw [if_neg hc]
        rfl
      rw [hstep]
      show cols2.foldlM (numericStep header) rows = none
      have hmem2 : col ∈ cols2 := by
        rcases List.mem_cons.mp hm with rfl | h2
        · exact absurd hch hc
        · exact h2
      exact ih rows col hmem2 hch hcnt hbad

theorem foldNumeric_untouched {header : List (List Char)} :
    ∀ (cols : List (List Char)) (rows rows2 : List (List Cell)),
    cols.foldlM (numericStep header) rows = some rows2 →
    rows2.length = rows.length ∧
    ∀ k, (∀ col ∈ cols, col ∈ header → colIdx col header ≠ k) →
      ∀ i r, rows.get? i = some r →
        ∃ r2, rows2.get? i = some r2 ∧ r2.get? k = r.get? k := by
  intro cols
  induction cols with
  | nil =>
    intro rows rows2 h
    simp only [List.foldlM_nil] at h
    injection h with h
    subst h
    exact ⟨rfl, fun k _ i r hr => ⟨r, hr, rfl⟩⟩
  | cons c cols2 ih =>
    intro rows rows2 h
    rw [List.foldlM_cons] at h
    by_cases hc : c ∈ header
    · by_cases hcc : colCount c header = 1
      · have hstep : numericStep header rows c =
            coerceColumn intCellParse (colIdx c header) rows := by
          unfold numericStep
          rw [if_pos hc, if_pos hcc]
        rw [hstep] at h
        cases hcol : coerceColumn intCellParse (colIdx c header) rows with
        | none =>
          rw [hcol] at h
          cases h
        | some rows1 =>
          rw [hcol] at h
          have h2 : cols2.foldlM (numericStep header) rows1 = some rows2 := h
          obtain ⟨hlen2, hcorr2⟩ := ih rows1 rows2 h2
          obtain ⟨hlen1, hcorr1⟩ := coerceColumn_spec hcol
          refine ⟨by rw [hlen2, hlen1], ?_⟩
          intro k hk i r hr
          obtain ⟨r1, hr1, _, hunch1, _⟩ := hcorr1 i r hr
          obtain ⟨r2, hr2, hunch2⟩ := hcorr2 k
            (fun c2 h2b hh2 => hk c2 (List.mem_cons_of_mem _ h2b) hh2)
            i r1 hr1
          refine ⟨r2, hr2, ?_⟩
          rw [hunch2]
          exact hunch1 k (hk c (List.mem_cons_self _ _) hc).symm
      · have hstep : numericStep header rows c = none := by
          unfold numericStep
          rw [if_pos hc, if_neg hcc]
        rw [hstep] at h
        cases h
    · have hstep : numericStep header rows c = some rows := by
        unfold numericStep
        rw [if_neg hc]
        rfl
      rw [hstep] at h
      have h2 : cols2.foldlM (numericStep header) rows = some rows2 := h
      obtain ⟨hlen2, hcorr2⟩ := ih rows rows2 h2
      refine ⟨hlen2, ?_⟩
      intro k hk i r hr
      exact hcorr2 k (fun c2 h2b hh2 => hk c2 (List.mem_cons_of_mem _ h2b) hh2)
        i r hr

theorem foldNumeric_length {header : List (List Char)} :
    ∀ (cols : List (List Char)) (rows rows2 : List (List Cell)),
    cols.foldlM (numericStep header) rows = some rows2 →
    rows2.length = rows.length :=
  fun cols rows rows2 h => (foldNumeric_untouched cols rows rows2 h).1

theorem convertPeriod_length {header : List (List Char)}
    {rows : List (List Cell)} :
    (convertPeriodStage header rows).length = rows.length := by
  unfold convertPeriodStage
  split
  · cases hcol : coerceColumn dateCellParse (colIdx periodHeader header)
        rows with
    | none => rfl
    | some rows2 => exact mapM_some_length hcol
  · rfl

theorem coerceRatio_length {header : List (List Char)}
    {rows rows2 : List (List Cell)}
    (h : coerceRatioStage header rows = some rows2) :
    rows2.length = rows.length := by
  unfold coerceRatioStage at h
  split at h
  · exact mapM_some_length h
  · cases h

theorem findHeader_none : ∀ {ls : List (List Char)},
    (∀ l ∈ ls, containsBoth l = false) → findHeader ls = none := by
  intro ls
  induction ls with
  | nil => intro _; rfl
  | cons l rest ih =>
    intro h
    rw [findHeader, if_neg (by simp [h l (List.mem_cons_self _ _)])]
    exact ih (fun l2 h2 => h l2 (List.mem_cons_of_mem _ h2))

theorem get?_eq_some_getD {α : Type} {l : List α} {i : Nat}
    (h : i < l.length) (d : α) : l.get? i = some (l.getD i d) := by
  obtain ⟨a, ha⟩ := get?_some_of_lt h
  rw [ha, List.getD_eq_get?, ha]
  rfl

theorem intCellParse_none {s : List Char}
    (h : (parseIntStr (s.filter (fun c => !(c = ',')))).isNone = true) :
    intCellParse (Cell.str s) = none := by
  show Option.map Cell.int (parseIntStr (s.filter (fun c => !(c = ','))))
    = none
  cases hp : parseIntStr (s.filter (fun c => !(c = ','))) with
  | none => rfl
  | some n =>
    rw [hp] at h
    cases h

theorem ratCellParse_none {s : List Char}
    (h : (parseFloatStr (s.filter (fun c => !(c = '%')))).isNone = true) :
    ratCellParse (Cell.str s) = none := by
  show Option.map Cell.rat (parseFloatStr (s.filter (fun c => !(c = '%'))))
    = none
  cases hp : parseFloatStr (s.filter (fun c => !(c = '%'))) with
  | none => rfl
  | some q =>
    rw [hp] at h
    cases h

theorem coerceCellAt_none {f : Cell → Option Cell} {j : Nat}
    {r : List Cell} {c : Cell} (hc : r.get? j = some c) (hf : f c = none) :
    coerceCellAt f j r = none := by
  unfold coerceCellAt
  rw [hc]
  show Option.map _ (f c) = none
  rw [hf]
  rfl

/-- Claim C6: the parser never returns partial data.  When no line
holds both header markers the result is unparseable; when any cell of a
selected numeric column (or of the ratio column) fails its coercion the
whole parse is unparseable rather than partial; and a successful parse
returns exactly as many rows as the extraction stage kept. -/
theorem parser_failure_policy (o1 o2 o3 : List Char) (df : Df)
    (h1 : (splitlinesChar o1).all (fun l => !(containsBoth l)) = true)
    (h2 : hasBadNumericCell (stage1 o2) = true)
    (h3 : parse_table_to_df o3 = some df) :
    parse_table_to_df o1 = none ∧ parse_table_to_df o2 = none ∧
    ∃ rt, stage1 o3 = some rt ∧ df.rows.length = rt.rows.length := by
  refine ⟨?_, ?_, ?_⟩
  · have hfh : findHeader (splitlinesChar o1) = none := by
      refine findHeader_none ?_
      intro l hl
      exact bool_not_true (List.all_eq_true.mp h1 l hl)
    have hstage : stage1 o1 = none := by
      unfold stage1
      rw [hfh]
    unfold parse_table_to_df
    rw [hstage]
    rfl
  · cases hst : stage1 o2 with
    | none =>
      unfold parse_table_to_df
      rw [hst]
      rfl
    | some rt =>
      rw [hst] at h2
      have h2b : (rowsHaveBadIntCell rt.header rt.rows ||
          rowsHaveBadRatioCell rt.header rt.rows) = true := h2
      by_cases hbadint : rowsHaveBadIntCell rt.header rt.rows = true
      · have hbad := hbadint
        unfold rowsHaveBadIntCell at hbad
        obtain ⟨col, hcolmem, hrest⟩ := List.any_eq_true.mp hbad
        rw [Bool.and_eq_true, Bool.and_eq_true] at hrest
        obtain ⟨⟨hmem, hcnt⟩, hany⟩ := hrest
        have hmem2 : col ∈ rt.header := of_decide_eq_true hmem
        have hcnt2 : colCount col rt.header = 1 := of_decide_eq_true hcnt
        obtain ⟨r, hr, hbadcell⟩ := List.any_eq_true.mp hany
        have hlt : colIdx col rt.header < r.length := by
          rw [stage1_rows_length hst r hr]
          exact colIdx_lt hmem2
        have hfold : coerceNumeric rt.header
            (rt.rows.map (fun r => r.map Cell.str)) = none := by
          refine foldNumeric_none numericColNames _ col hcolmem hmem2
            hcnt2 ?_
          refine ⟨r.map Cell.str, List.mem_map.mpr ⟨r, hr, rfl⟩,
            r.getD (colIdx col rt.header) [], ?_, intCellParse_none hbadcell⟩
          rw [List.get?_map, get?_eq_some_getD hlt]
          rfl
        unfold parse_table_to_df
        simp only [hst, Option.some_bind, hfold, Option.none_bind]
      · have hbad : rowsHaveBadRatioCell rt.header rt.rows = true := by
          have hint : rowsHaveBadIntCell rt.header rt.rows = false := by
            cases hx : rowsHaveBadIntCell rt.header rt.rows
            · rfl
            · exact absurd hx hbadint
          rw [hint] at h2b
          simpa using h2b
        unfold rowsHaveBadRatioCell at hbad
        rw [Bool.and_eq_true] at hbad
        obtain ⟨hcnt, hany⟩ := hbad
        have hcnt2 : colCount cacheHitHeader rt.header = 1 :=
          of_decide_eq_true hcnt
        have hratmem := colCount_one_mem hcnt2
        obtain ⟨r, hr, hbadcell⟩ := List.any_eq_true.mp hany
        have hlt : colIdx cacheHitHeader rt.header < r.length := by
          rw [stage1_rows_length hst r hr]
          exact colIdx_lt hratmem
        cases hnum : coerceNumeric rt.header
            (rt.rows.map (fun r => r.map Cell.str)) with
        | none =>
          unfold parse_table_to_df
          simp only [hst, Option.some_bind, hnum, Option.none_bind]
        | some rows1 =>
          obtain ⟨i, hi⟩ := get?_of_mem
            (List.mem_map.mpr ⟨r, hr, rfl⟩ :
              r.map Cell.str ∈ rt.rows.map (fun r => r.map Cell.str))
          obtain ⟨hlen1, hcorr⟩ :=
            foldNumeric_untouched numericColNames _ rows1 hnum
          obtain ⟨r1, hr1, hunch⟩ := hcorr (colIdx cacheHitHeader rt.header)
            (by
              intro c2 hc2 hh2 he
              have hcr : c2 = cacheHitHeader := colIdx_inj hh2 hratmem he
              rw [hcr] at hc2
              exact absurd hc2 (by decide))
            i _ hi
          have hratio : coerceRatioStage rt.header rows1 = none := by
            unfold coerceRatioStage
            rw [if_pos hcnt2]
            refine coerceColumn_none (mem_of_get? hr1)
              (coerceCellAt_none ?_ (ratCellParse_none hbadcell))
            rw [hunch, List.get?_map, get?_eq_some_getD hlt]
            rfl
          unfold parse_table_to_df
          simp only [hst, Option.some_bind, hnum, hratio, Option.map_none']
  · unfold parse_table_to_df at h3
    cases hst : stage1 o3 with
    | none =>
      rw [hst] at h3
      cases h3
    | some rt =>
      rw [hst, Option.some_bind] at h3
      cases hnum : coerceNumeric rt.header
          (rt.rows.map (fun r => r.map Cell.str)) with
      | none =>
        rw [hnum, Option.none_bind] at h3
        cases h3
      | some rows1 =>
        rw [hnum, Option.some_bind] at h3
        cases hratio : coerceRatioStage rt.header rows1 with
        | none =>
          rw [hratio, Option.map_none'] at h3
          cases h3
        | some rows2 =>
          rw [hratio, Option.map_some'] at h3
          injection h3 with h3
          refine ⟨rt, rfl, ?_⟩
          rw [← h3]
          show (convertPeriodStage rt.header rows2).length = rt.rows.length
          rw [convertPeriod_length, coerceRatio_length hratio,
            foldNumeric_length numericColNames _ rows1 hnum,
            List.length_map]

theorem convertPeriod_spec {header : List (List Char)}
    {rows : List (List Cell)} :
    ∀ i r, rows.get? i = some r → ∃ r2,
      (convertPeriodStage header rows).get? i = some r2 ∧
      r2.length = r.length ∧
      ∀ k, (colCount periodHeader header = 1 →
        colIdx periodHeader header ≠ k) → r2.get? k = r.get? k := by
  intro i r hr
  unfold convertPeriodStage
  split
  · rename_i hcnt
    cases hcol : coerceColumn dateCellParse (colIdx periodHeader header)
        rows with
    | none => exact ⟨r, hr, rfl, fun _ _ => rfl⟩
    | some rows2 =>
      obtain ⟨_, hcorr⟩ := coerceColumn_spec hcol
      obtain ⟨r2, hr2, hlen, hunch, _⟩ := hcorr i r hr
      exact ⟨r2, hr2, hlen, fun k hk => hunch k (hk hcnt).symm⟩
  · exact ⟨r, hr, rfl, fun _ _ => rfl⟩

/-- Structural extraction on a rendered table none of whose data rows
matches the header width: the empty-data check fails the parse. -/
theorem stage1_render_empty {hs : List (List Char)} {sep : List Char}
    {rows : List (List (List Char))}
    (hgh : ∀ f ∈ hs, goodField f = true) (hne : hs ≠ [])
    (hper : periodHeader ∈ hs) (hrat : cacheHitHeader ∈ hs)
    (hsep : ∀ c ∈ sep, ¬(c = '
'))
    (hrows : ∀ r ∈ rows, goodRow r = true)
    (hrne : rows ≠ [])
    (hgood : goodOf hs rows = []) :
    stage1 (renderTable hs sep rows) = none := by
  unfold stage1 renderTable
  rw [splitlines_intercalate (by simp) ?hnl ?hlast]
  case hnl =>
    intro l hl
    rcases List.mem_cons.mp hl with rfl | hl2
    · exact join2_no_nl hgh
    · rcases List.mem_cons.mp hl2 with rfl | hl3
      · exact hsep
      · obtain ⟨r, hr, rfl⟩ := List.mem_map.mp hl3
        exact join2_no_nl (goodRow_spec (hrows r hr)).2.1
  case hlast =>
    intro heq
    rw [getLast?_cons_of_ne_nil (by simp),
      getLast?_cons_of_ne_nil (by simpa using hrne)] at heq
    obtain ⟨r, hr, hjr⟩ := List.mem_map.mp (getLast?_mem heq)
    exact goodRow_join2_ne_nil (hrows r hr) hjr
  rw [findHeader, if_pos (by
    rw [containsBoth]
    simp [containsStr_join2 hper, containsStr_join2 hrat])]
  simp only [List.drop_one, List.tail_cons]
  rw [strip_join2 hne hgh, splitWs2_join2 hne hgh]
  rw [filterMap_keepRow hrows]
  rw [if_pos hgood]

theorem goodOf_length {hs : List (List Char)}
    {rows : List (List (List Char))} :
    ∀ r ∈ goodOf hs rows, r.length = hs.length := by
  intro r hr
  unfold goodOf at hr
  have := List.of_mem_filter hr
  exact of_decide_eq_true this

/-- Claim C5 (amended): rendering a well-formed header, separator and
data rows whose matching subset is non-empty and coercible parses to a
frame with the header, exactly one row per matching data row, integer
cells holding the comma-stripped parses and the ratio cell holding the
percent-stripped parse; rows of the wrong width are dropped without an
error. -/
theorem parser_roundtrip_amended (hs : List (List Char)) (sep : List Char)
    (rows : List (List (List Char)))
    (hgh : ∀ f ∈ hs, goodField f = true) (hnd : hs.Nodup) (hne : hs ≠ [])
    (hper : periodHeader ∈ hs) (hrat : cacheHitHeader ∈ hs)
    (hsep : ∀ c ∈ sep, ¬(c = '
'))
    (hrows : ∀ r ∈ rows, goodRow r = true)
    (hrne : rows ≠ [])
    (hgood : goodOf hs rows ≠ [])
    (hnum : ∀ r ∈ goodOf hs rows, ∀ col ∈ numericColNames, col ∈ hs →
      (parseIntStr ((r.getD (colIdx col hs) []).filter
        (fun c => !(c = ',')))).isSome = true)
    (hratio : ∀ r ∈ goodOf hs rows,
      (parseFloatStr ((r.getD (colIdx cacheHitHeader hs) []).filter
        (fun c => !(c = '%')))).isSome = true) :
    ∃ df, parse_table_to_df (renderTable hs sep rows) = some df ∧
      df.header = hs ∧ df.rows.length = (goodOf hs rows).length ∧
      (∀ r2 ∈ rows, r2.length ≠ hs.length → r2 ∉ goodOf hs rows) ∧
      ∀ i r, (goodOf hs rows).get? i = some r →
        ∃ dr, df.rows.get? i = some dr ∧ dr.length = hs.length ∧
        (∀ col ∈ numericColNames, col ∈ hs → ∃ n,
          parseIntStr ((r.getD (colIdx col hs) []).filter
            (fun c => !(c = ','))) = some n ∧
          dr.get? (colIdx col hs) = some (Cell.int n)) ∧
        (∃ q, parseFloatStr ((r.getD (colIdx cacheHitHeader hs) []).filter
            (fun c => !(c = '%'))) = some q ∧
          dr.get? (colIdx cacheHitHeader hs) = some (Cell.rat q)) := by
  have hst := stage1_render hgh hne hper hrat hsep hrows hrne hgood
  have hglen : ∀ r ∈ goodOf hs rows, r.length = hs.length := goodOf_length
  have hcell0 : ∀ r ∈ goodOf hs rows, ∀ col, col ∈ hs →
      (r.map Cell.str).get? (colIdx col hs) =
        some (Cell.str (r.getD (colIdx col hs) [])) := by
    intro r hr col hcol
    rw [List.get?_map, get?_eq_some_getD (by
      rw [hglen r hr]
      exact colIdx_lt hcol)]
    rfl
  obtain ⟨rows1, hfold, hlen1, hcorr1⟩ :=
    foldNumeric_ok numericColNames
      ((goodOf hs rows).map (fun r => r.map Cell.str))
      (by decide)
      (fun col _ hcol => colCount_eq_one_of_nodup hnd hcol)
      (by
        intro col hcm hcol r0 hr0
        obtain ⟨r, hr, rfl⟩ := List.mem_map.mp hr0
        refine ⟨r.getD (colIdx col hs) [], hcell0 r hr col hcol, ?_⟩
        have hp := hnum r hr col hcm hcol
        cases hps : parseIntStr ((r.getD (colIdx col hs) []).filter
            (fun c => !(c = ','))) with
        | none =>
          rw [hps] at hp
          cases hp
        | some n =>
          show (Option.map Cell.int (parseIntStr _)).isSome = true
          rw [hps]
          rfl)
  have hcnt1 : colCount cacheHitHeader hs = 1 :=
    colCount_eq_one_of_nodup hnd hrat
  have hratne : ∀ col ∈ numericColNames, col ∈ hs →
      colIdx col hs ≠ colIdx cacheHitHeader hs := by
    intro col hcm hcol he
    have : col = cacheHitHeader := colIdx_inj hcol hrat he
    rw [this] at hcm
    exact absurd hcm (by decide)
  have hratcell : ∀ i r, (goodOf hs rows).get? i = some r →
      ∃ r1, rows1.get? i = some r1 ∧
        r1.get? (colIdx cacheHitHeader hs) =
          some (Cell.str (r.getD (colIdx cacheHitHeader hs) [])) := by
    intro i r hr
    obtain ⟨r1, hr1, _, hunch, _⟩ := hcorr1 i (r.map Cell.str)
      (by rw [List.get?_map, hr]; rfl)
    refine ⟨r1, hr1, ?_⟩
    rw [hunch (colIdx cacheHitHeader hs) hratne]
    exact hcell0 r (mem_of_get? hr) cacheHitHeader hrat
  obtain ⟨rows2, hrc⟩ : ∃ rows2,
      coerceColumn ratCellParse (colIdx cacheHitHeader hs) rows1
        = some rows2 := by
    refine coerceColumn_isSome ?_
    intro r1 hr1
    obtain ⟨i, hi⟩ := get?_of_mem hr1
    have hilt : i < (goodOf hs rows).length := by
      have h2 : i < rows1.length := get?_some_lt hi
      rw [hlen1, List.length_map] at h2
      exact h2
    obtain ⟨r, hr⟩ := get?_some_of_lt hilt
    obtain ⟨r1b, hr1b, hcell⟩ := hratcell i r hr
    rw [hi] at hr1b
    injection hr1b with hr1b
    subst hr1b
    refine ⟨_, hcell, ?_⟩
    have hp := hratio r (mem_of_get? hr)
    cases hps : parseFloatStr ((r.getD (colIdx cacheHitHeader hs) []).filter
        (fun c => !(c = '%'))) with
    | none =>
      rw [hps] at hp
      cases hp
    | some q =>
      show (Option.map Cell.rat (parseFloatStr _)).isSome = true
      rw [hps]
      rfl
  have hratio_stage : coerceRatioStage hs rows1 = some rows2 := by
    unfold coerceRatioStage
    rw [if_pos hcnt1]
    exact hrc
  refine ⟨⟨hs, convertPeriodStage hs rows2⟩, ?_, rfl, ?_, ?_, ?_⟩
  · unfold parse_table_to_df
    rw [hst, Option.some_bind]
    show (coerceNumeric hs ((goodOf hs rows).map
      (fun r => r.map Cell.str))).bind _ = _
    unfold coerceNumeric
    rw [hfold, Option.some_bind, hratio_stage, Option.map_some']
  · show (convertPeriodStage hs rows2).length = _
    rw [convertPeriod_length, coerceRatio_length hratio_stage, hlen1,
      List.length_map]
  · intro r2 _ hlen2 hmem
    exact hlen2 (hglen r2 hmem)
  · intro i r hr
    obtain ⟨r1, hr1, hlen1b, hunch1, hcellint⟩ := hcorr1 i (r.map Cell.str)
      (by rw [List.get?_map, hr]; rfl)
    obtain ⟨_, hcorr2⟩ := coerceColumn_spec hrc
    obtain ⟨r2, hr2, hlen2b, hunch2, c, c2, hc, hfc, hr2j⟩ :=
      hcorr2 i r1 hr1
    obtain ⟨r3, hr3, hlen3b, hunch3⟩ := convertPeriod_spec i r2 hr2
    have hperne_num : ∀ col ∈ numericColNames, col ∈ hs →
        colIdx periodHeader hs ≠ colIdx col hs := by
      intro col hcm hcol he
      have hpe : periodHeader = col := colIdx_inj hper hcol he
      rw [← hpe] at hcm
      exact absurd hcm (by decide)
    have hperrat : colIdx periodHeader hs ≠ colIdx cacheHitHeader hs := by
      intro he
      have hpe : periodHeader = cacheHitHeader := colIdx_inj hper hrat he
      exact absurd hpe (by decide)
    refine ⟨r3, hr3, ?_, ?_, ?_⟩
    · rw [hlen3b, hlen2b, hlen1b, List.length_map]
      exact hglen r (mem_of_get? hr)
    · intro col hcm hcol
      obtain ⟨s, c3, hs1, hp1, hr1j⟩ := hcellint col hcm hcol
      have hs2 : s = r.getD (colIdx col hs) [] := by
        have := hcell0 r (mem_of_get? hr) col hcol
        rw [hs1] at this
        injection this with this
        injection this
      subst hs2
      have hp2 : ∃ n, parseIntStr ((r.getD (colIdx col hs) []).filter
          (fun c => !(c = ','))) = some n ∧ c3 = Cell.int n := by
        have hp3 : Option.map Cell.int (parseIntStr
            ((r.getD (colIdx col hs) []).filter (fun c => !(c = ','))))
            = some c3 := hp1
        cases hps : parseIntStr ((r.getD (colIdx col hs) []).filter
            (fun c => !(c = ','))) with
        | none =>
          rw [hps] at hp3
          cases hp3
        | some n =>
          rw [hps] at hp3
          injection hp3 with hp3
          exact ⟨n, rfl, hp3.symm⟩
      obtain ⟨n, hpn, rfl⟩ := hp2
      refine ⟨n, hpn, ?_⟩
      rw [hunch3 (colIdx col hs) (fun _ => hperne_num col hcm hcol)]
      rw [hunch2 (colIdx col hs) (hratne col hcm hcol)]
      exact hr1j
    · have hcstr : c = Cell.str (r.getD (colIdx cacheHitHeader hs) []) := by
        obtain ⟨r1b, hr1b, hcell⟩ := hratcell i r hr
        rw [hr1] at hr1b
        injection hr1b with hr1b
        subst hr1b
        rw [hc] at hcell
        injection hcell
      subst hcstr
      have hp2 : ∃ q, parseFloatStr ((r.getD (colIdx cacheHitHeader hs)
          []).filter (fun c => !(c = '%'))) = some q ∧
          c2 = Cell.rat q := by
        have hp3 : Option.map Cell.rat (parseFloatStr
            ((r.getD (colIdx cacheHitHeader hs) []).filter
              (fun c => !(c = '%')))) = some c2 := hfc
        cases hps : parseFloatStr ((r.getD (colIdx cacheHitHeader hs)
            []).filter (fun c => !(c = '%'))) with
        | none =>
          rw [hps] at hp3
          cases hp3
        | some q =>
          rw [hps] at hp3
          injection hp3 with hp3
          exact ⟨q, rfl, hp3.symm⟩
      obtain ⟨q, hpq, rfl⟩ := hp2
      refine ⟨q, hpq, ?_⟩
      rw [hunch3 (colIdx cacheHitHeader hs) (fun _ => hperrat)]
      exact hr2j

/-- Claim C5 is refuted at zero matching rows: a well-formed header and
separator followed by a single data row of the wrong width yields an
unparseable result, not a zero-row table. -/
theorem parser_zero_rows_cex :
    (∀ f ∈ exHeader, goodField f = true) ∧
    (∀ r ∈ exRowsShort, goodRow r = true) ∧
    (∀ r ∈ exRowsShort, r.length ≠ exHeader.length) ∧
    parse_table_to_df (renderTable exHeader exSep exRowsShort) = none := by
  refine ⟨by decide, by decide, by decide, ?_⟩
  unfold parse_table_to_df
  rw [stage1_render_empty (by decide) (by decide) (by decide) (by decide)
    (by decide) (by decide) (by decide) (by decide)]
  rfl

/-- Witness for the amended C5 on a concrete mixed table. -/
theorem parser_roundtrip_amended_w :
    ∃ df, parse_table_to_df (renderTable exHeader exSep exRowsMixed)
        = some df ∧
      df.rows.length = (goodOf exHeader exRowsMixed).length ∧
      (∀ r2 ∈ exRowsMixed, r2.length ≠ exHeader.length →
        r2 ∉ goodOf exHeader exRowsMixed) := by
  obtain ⟨df, h1, _, h3, h4, _⟩ := parser_roundtrip_amended exHeader exSep
    exRowsMixed (by decide) (by decide) (by decide) (by decide) (by decide)
    (by decide) (by decide) (by decide) (by decide) (by decide) (by decide)
  exact ⟨df, h1, h3, h4⟩

/-- Witness for C6 on concrete inputs: marker-free text, a table with a
bad integer cell, and a fully parseable table. -/
theorem parser_failure_policy_w :
    parse_table_to_df (("hello").toList) = none ∧
    parse_table_to_df (renderTable exHeader exSep exRowsBadInt) = none ∧
    ∃ rt, stage1 (renderTable exHeader exSep exRowsGood) = some rt ∧
      exDfGood.rows.length = rt.rows.length := by
  have hbad : hasBadNumericCell
      (stage1 (renderTable exHeader exSep exRowsBadInt)) = true := by
    rw [stage1_render (by decide) (by decide) (by decide) (by decide)
      (by decide) (by decide) (by decide) (by decide)]
    decide
  have hparse : parse_table_to_df (renderTable exHeader exSep exRowsGood)
      = some exDfGood := by
    unfold parse_table_to_df
    rw [stage1_render (by decide) (by decide) (by decide) (by decide)
      (by decide) (by decide) (by decide) (by decide)]
    rw [Option.some_bind]
    decide
  exact parser_failure_policy (("hello").toList)
    (renderTable exHeader exSep exRowsBadInt)
    (renderTable exHeader exSep exRowsGood) exDfGood
    (by decide) hbad hparse

end MetricsMonitoring
